import Mathlib

/-!
Verification development for the semantic-memory integration layer
(`SemanticMemoryIntegration.ts` and its `syncHistory` variant).

The TypeScript source is shallowly embedded: strings are `List Char`
(wrapped in `String` at the interface), every regex in the source is
concrete and is hand-compiled to an executable matcher with JavaScript
`String.replace(/…/g, …)` semantics (leftmost, non-overlapping matches
found on the original string, deletions/replacements spliced in), and
asynchronous remote calls are modelled by oracles supplied in an
environment record, with thrown exceptions modelled by `Except`.
-/

namespace Paw

abbrev Chars := List Char

/-- JavaScript `\s` restricted to the ASCII whitespace characters that can
occur in this code base's strings (space, tab, LF, CR, VT, FF). -/
def isWsChar (c : Char) : Bool :=
  c = ' ' || c = '\t' || c = '\n' || c = '\r' || c = '\x0b' || c = '\x0c'

/-- The regex character class `[a-zA-Z0-9_:]` used for tag names. -/
def isNameChar (c : Char) : Bool :=
  c.isAlpha || c.isDigit || c = '_' || c = ':'

/-- `pat` is a literal prefix of `s`. -/
def isPrefixC : Chars → Chars → Bool
  | [], _ => true
  | _ :: _, [] => false
  | p :: ps, c :: cs => p = c && isPrefixC ps cs

/-- Index of the first occurrence of the literal `pat` in `s`
(JavaScript-style leftmost search). -/
def findSub (pat : Chars) : Chars → Option Nat
  | [] => if isPrefixC pat [] then some 0 else none
  | c :: rest =>
    if isPrefixC pat (c :: rest) then some 0
    else (findSub pat rest).map (· + 1)

/-- Index of the last occurrence of the character `c` in `s`. -/
def lastIdxOf (c : Char) : Chars → Option Nat
  | [] => none
  | a :: rest =>
    match lastIdxOf c rest with
    | some j => some (j + 1)
    | none => if a = c then some 0 else none

/-- Matcher for `open[\s\S]*?close\n?` with literal delimiters (regex
steps 0–2 of `cleanMessageContent`): lazy inner part, so the match ends
at the first occurrence of `close`, plus an optional trailing newline. -/
def matchBlock (opn close : Chars) (s : Chars) : Option Nat :=
  if isPrefixC opn s then
    match findSub close (s.drop opn.length) with
    | some j =>
      let len := opn.length + j + close.length
      match (s.drop len).head? with
      | some '\n' => some (len + 1)
      | _ => some len
    | none => none
  else none

/-- Matcher for an opening tag `<t(?:\s+[^>]*)?>`: either `<t>` directly,
or `<t` followed by a whitespace character and everything up to the first
`>` (the lazy/greedy analysis of the concrete regex is deterministic). -/
def matchOpenTag (t : Chars) (s : Chars) : Option Nat :=
  let pre := '<' :: t
  if isPrefixC pre s then
    match s.drop pre.length with
    | '>' :: _ => some (pre.length + 1)
    | c :: rest =>
      if isWsChar c then
        match findSub ['>'] rest with
        | some j => some (pre.length + 1 + j + 1)
        | none => none
      else none
    | [] => none
  else none

/-- Matcher for `<t(?:\s+[^>]*)?>[\s\S]*?</t>\n?` (regex step 3:
whole-block removal for `ask_followup_question` / `attempt_completion`). -/
def matchToolBlock (t : Chars) (s : Chars) : Option Nat :=
  match matchOpenTag t s with
  | some o =>
    let close := '<' :: '/' :: (t ++ ['>'])
    match findSub close (s.drop o) with
    | some j =>
      let len := o + j + close.length
      match (s.drop len).head? with
      | some '\n' => some (len + 1)
      | _ => some len
    | none => none
  | none => none

/-- Matcher for a self-closing tag `<([a-zA-Z0-9_:]+)\s*\/>`. -/
def matchSelfClose (s : Chars) : Option Nat :=
  match s with
  | '<' :: rest =>
    let name := rest.takeWhile isNameChar
    if name.isEmpty then none
    else
      let r1 := rest.drop name.length
      let ws := r1.takeWhile isWsChar
      match r1.drop ws.length with
      | '/' :: '>' :: _ => some (1 + name.length + ws.length + 2)
      | _ => none
  | _ => none

/-- Matcher for the literal closing tag `</t>`. -/
def matchLit (pat : Chars) (s : Chars) : Option Nat :=
  if isPrefixC pat s then some pat.length else none

/-- Matcher for the residual-tag regex `<[/!]?[a-zA-Z0-9_:]+[^>]*>`
(step: aggressive removal of any remaining simple XML-like tag). -/
def matchGenericTag (s : Chars) : Option Nat :=
  match s with
  | '<' :: rest =>
    let (k, r1) : Nat × Chars :=
      match rest with
      | '/' :: t => (1, t)
      | '!' :: t => (1, t)
      | _ => (0, rest)
    match r1 with
    | c :: r2 =>
      if isNameChar c then
        match findSub ['>'] r2 with
        | some j => some (1 + k + 1 + j + 1)
        | none => none
      else none
    | [] => none
  | _ => none

/-- Matcher for `\n\s*\n` (greedy `\s*`, so the match runs to the last
newline inside the whitespace run following the first newline). -/
def matchBlankRun (s : Chars) : Option Nat :=
  match s with
  | '\n' :: rest =>
    match lastIdxOf '\n' (rest.takeWhile isWsChar) with
    | some j => some (1 + j + 1)
    | none => none
  | _ => none

/-- Fuel-driven worker for `replace(/…/g, rep)`: scan left to right, at
each position try the matcher; on a match emit `rep` and resume after the
matched span, otherwise keep the character.  Fuel (`≥` length) makes the
recursion structural so the kernel can evaluate it. -/
def replaceMatchesF (m : Chars → Option Nat) (rep : Chars) : Nat → Chars → Chars
  | 0, s => s
  | _ + 1, [] => []
  | fuel + 1, c :: rest =>
    match m (c :: rest) with
    | some (n + 1) => rep ++ replaceMatchesF m rep fuel (rest.drop n)
    | _ => c :: replaceMatchesF m rep fuel rest

/-- `s.replace(/…/g, rep)` on the whole string. -/
def replaceMatches (m : Chars → Option Nat) (rep : Chars) (s : Chars) : Chars :=
  replaceMatchesF m rep s.length s

/-- `s.replace(/…/g, "")`: delete every leftmost non-overlapping match. -/
def deleteMatches (m : Chars → Option Nat) (s : Chars) : Chars :=
  replaceMatches m [] s

/-- JavaScript `String.prototype.trim()` on our character model. -/
def trimChars (s : Chars) : Chars :=
  ((s.dropWhile isWsChar).reverse.dropWhile isWsChar).reverse

def recallOpen : Chars := "[Recalled Memories]".data
def recallClose : Chars := "[/Recalled Memories]".data
def envOpen : Chars := "<environment_details>".data
def envClose : Chars := "</environment_details>".data
def searchOpen : Chars := "<<<<<<< SEARCH".data
def replaceClose : Chars := ">>>>>>> REPLACE".data

/-- The two tags whose whole blocks are dropped (step 3 of the source). -/
def blockToolTags : List Chars :=
  ["ask_followup_question".data, "attempt_completion".data]

/-- The tag list whose opening/closing tags are stripped while the inner
text is preserved (step 4 of the source), in source order. -/
def toolTagsToRemove : List Chars :=
  ["read_file".data, "apply_diff".data, "search_files".data, "list_files".data,
   "write_to_file".data, "insert_content".data, "search_and_replace".data,
   "execute_command".data, "use_mcp_tool".data, "access_mcp_resource".data,
   "switch_mode".data, "new_task".data, "fetch_instructions".data,
   "args".data, "file".data, "path".data, "content".data, "diff".data,
   "query".data, "mode".data, "message".data, "result".data, "command".data,
   "server_name".data, "tool_name".data, "arguments".data, "uri".data,
   "task".data]

/-- `cleanMessageContent` (the Sanitizer), step for step from the source:
environment blocks, recalled-memory blocks, diff markers, whole tool-call
blocks, self-closing tags, listed open/close tags, residual tags, blank
line consolidation, trim. -/
def cleanChars (s : Chars) : Chars :=
  let t0 := deleteMatches (matchBlock envOpen envClose) s
  let t1 := deleteMatches (matchBlock recallOpen recallClose) t0
  let t2 := deleteMatches (matchBlock searchOpen replaceClose) t1
  let t3 := blockToolTags.foldl (fun acc tag => deleteMatches (matchToolBlock tag) acc) t2
  let t4 := deleteMatches matchSelfClose t3
  let t5 := toolTagsToRemove.foldl
    (fun acc tag =>
      deleteMatches (matchLit ('<' :: '/' :: (tag ++ ['>'])))
        (deleteMatches (matchOpenTag tag) acc)) t4
  let t6 := deleteMatches matchGenericTag t5
  let t7 := replaceMatches matchBlankRun ['\n', '\n'] t6
  trimChars t7

/-- String-level wrapper for `cleanMessageContent` (the `if (!text)` guard
of the source is subsumed: the pipeline maps the empty string to itself). -/
def cleanMessageContent (s : String) : String :=
  ⟨cleanChars s.data⟩

/-! ## Data model -/

/-- JavaScript `Array.prototype.join(sep)` / template joining. -/
def joinSep (sep : String) : List String → String
  | [] => ""
  | [x] => x
  | x :: xs => x ++ sep ++ joinSep sep xs

/-- Decimal rendering of a natural number, modelling JavaScript's
number-to-string coercion in template literals (for the non-negative
integers that occur here). -/
def natDigitsF : Nat → Nat → Chars
  | 0, _ => []
  | fuel + 1, n =>
    if n < 10 then [Nat.digitChar n]
    else natDigitsF fuel (n / 10) ++ [Nat.digitChar (n % 10)]

def natStr (n : Nat) : String := ⟨natDigitsF (n + 1) n⟩

/-- An entry of the host's MCP service registry. -/
structure McpServer where
  name : String
  status : String
deriving DecidableEq, Repr

/-- A recalled memory item returned by the external service.  `score`
holds the already-formatted `toFixed(4)` rendering of the JS number (or
`none` when the field is absent): floating-point formatting itself is not
re-modelled, only the resulting string enters any computation here. -/
structure RecalledMemoryItem where
  text : String
  sourceId : String
  chunkIndex : Int
  score : Option String := none
deriving DecidableEq, Repr

/-- An inner block of a `tool_result`'s array-shaped content. -/
inductive InnerBlock where
  | text (text : String)
  | otherInner
deriving DecidableEq, Repr

/-- The `content` field of a `tool_result` block: a plain string, an
array of blocks, or anything else (`missing`). -/
inductive TrContent where
  | str (s : String)
  | arr (blocks : List InnerBlock)
  | missing
deriving DecidableEq, Repr

/-- A content block of a message (`text`, `tool_result`, `image`, …). -/
inductive ContentBlock where
  | text (text : String)
  | toolResult (content : TrContent)
  | image
  | otherBlock
deriving DecidableEq, Repr

/-- Message content: a plain string or an ordered block sequence. -/
inductive MsgContent where
  | str (s : String)
  | blocks (l : List ContentBlock)
deriving DecidableEq, Repr

/-- A transcript message (`Anthropic.MessageParam & { ts?: number }`). -/
structure Msg where
  role : String
  content : MsgContent
  ts : Option Nat := none
deriving DecidableEq, Repr

def isTextBlock : ContentBlock → Bool
  | .text _ => true
  | _ => false

def textOf : ContentBlock → String
  | .text t => t
  | _ => ""

/-- `content.filter(b => b.type === "text").map(b => b.text)`. -/
def textBlockTexts (l : List ContentBlock) : List String :=
  (l.filter isTextBlock).map textOf

/-- Text derivation used by both `storeExchangeInternal` versions and by
the sync-variant storage handler: strings pass through, block arrays keep
only `text` blocks, joined with `"\n\n"`. -/
def contentToText : MsgContent → String
  | .str s => s
  | .blocks l => joinSep "\n\n" (textBlockTexts l)

/-! ## Availability probe and remote-call surface -/

def semanticMemoryServerName : String := "semantic-memory"

/-- `isAvailable()`: a registry entry named "semantic-memory" exists and
its status is "connected" (first entry with that name decides). -/
def isAvailable (servers : List McpServer) : Bool :=
  match servers.find? (fun server => server.name = semanticMemoryServerName) with
  | some server => server.status = "connected"
  | none => false

structure EnrichContextMcpArgs where
  query : String
  conversationContext : String
  topK : Nat
deriving DecidableEq, Repr

structure StoreExchangeMcpPayload where
  userMessage : String
  assistantResponse : String
  taskId : String
  userTimestamp : Option Nat
  assistantTimestamp : Option Nat
deriving DecidableEq, Repr

/-- One remote MCP tool invocation, recorded with its arguments. -/
inductive RemoteCall where
  | enrichContext (args : EnrichContextMcpArgs)
  | storeExchange (args : StoreExchangeMcpPayload)
  | getLastChunkIndex (sourceId : String)
  | getCoreIdentity
deriving DecidableEq, Repr

/-- A content part of a remote response. -/
inductive RespContent where
  | text (text : String)
  | otherContent
deriving DecidableEq, Repr

/-- A remote response: `none` models a null response or one whose
`content` is not a proper array. -/
abbrev McpResponse := Option (List RespContent)

/-- The `score` value of an unvalidated `recalled_memories` element as
the formatting template reads it.  `nullish` is `null`/`undefined`
(`score?.` short-circuits and the display falls back to "N/A"); `num s`
is a number whose `toFixed(4)` renders to `s`; `nonNum` is any other
value, on which `score?.toFixed` evaluates to `undefined` and the call
throws a TypeError. -/
inductive JsScore where
  | nullish
  | num (rendered : String)
  | nonNum
deriving DecidableEq, Repr

/-- An unvalidated element of the parsed `recalled_memories` array.  The
source checks only `Array.isArray(recalled_memories)` and casts, so
elements reach the formatting template unchecked: `nullish` is a
`null`/`undefined` element (reading `item.sourceId` from it throws);
`obj` records the strings the template reads for `item.sourceId` and
`item.text` (an absent property renders as "undefined", already folded
into the string) together with the raw `score`. -/
inductive RawMemoryItem where
  | nullish
  | obj (text sourceId : String) (score : JsScore)
deriving DecidableEq, Repr

/-- The raw shape of a well-formed `RecalledMemoryItem` as the
formatting template reads it. -/
def RawMemoryItem.ofItem (it : RecalledMemoryItem) : RawMemoryItem :=
  .obj it.text it.sourceId
    (match it.score with | none => .nullish | some s => .num s)

/-- An element the formatting template renders without throwing: an
object whose `score` is a number or nullish. -/
def wellFormedRaw : RawMemoryItem → Bool
  | .nullish => false
  | .obj _ _ .nonNum => false
  | .obj _ _ _ => true

/-- The parsed JSON envelope shape relevant to these operations.
`success` abstracts truthiness of the `success` field,
`recalledMemories = some ms` abstracts `Array.isArray(recalled_memories)`
with elements `ms` — the elements themselves are never validated by the
source, so they are raw values. -/
structure Envelope where
  success : Bool
  recalledMemories : Option (List RawMemoryItem) := none
  lastChunkIndex : Option Int := none

/-- The environment: current registry state plus oracles for the
transport and for `JSON.parse` of response texts.  `Except.error` models
a rejected call / thrown parse error. -/
structure Env where
  servers : List McpServer
  callTool : RemoteCall → Except Unit McpResponse
  parseJson : String → Except Unit Envelope

/-- The source's response-shape guard: `response && response.content &&
Array.isArray(response.content) && response.content.length > 0 &&
response.content[0].type === "text"`, yielding the first text. -/
def firstTextContent : McpResponse → Option String
  | some (.text t :: _) => some t
  | _ => none

/-! ## Memory client operations (`SemanticMemoryIntegration.ts`) -/

/-- `recentHistory.slice(-6)`. -/
def lastSix (l : List Msg) : List Msg := l.drop (l.length - 6)

/-- The `conversationContext` string of `enrichWithContextInternal`:
last 6 entries, each entry's text-block texts joined with a single
space, sanitized, rendered as `"{role}: {text}"` lines joined by `"\n"`. -/
def conversationContextString (recentHistory : List Msg) : String :=
  joinSep "\n" ((lastSix recentHistory).map fun msg =>
    let content :=
      match msg.content with
      | .str s => s
      | .blocks l => joinSep " " (textBlockTexts l)
    msg.role ++ ": " ++ cleanMessageContent content)

/-- `enrichWithContextInternal` (identical in both source versions):
availability gate, argument construction, remote call, envelope parse;
every failure path yields `[]`.  Returns the remote calls made and the
recalled memories — raw, since `resultPayload.recalled_memories as
RecalledMemoryItem[]` is a cast that validates no element. -/
def enrichWithContextInternal (env : Env) (currentUserMessageContent : String)
    (recentHistory : List Msg) : List RemoteCall × List RawMemoryItem :=
  if !(isAvailable env.servers) then ([], [])
  else
    let args : EnrichContextMcpArgs :=
      ⟨currentUserMessageContent, conversationContextString recentHistory, 3⟩
    let calls := [RemoteCall.enrichContext args]
    match env.callTool (.enrichContext args) with
    | .error _ => (calls, [])
    | .ok response =>
      match firstTextContent response with
      | none => (calls, [])
      | some t =>
        match env.parseJson t with
        | .error _ => (calls, [])
        | .ok payload =>
          match payload.success, payload.recalledMemories with
          | true, some ms => (calls, ms)
          | _, _ => (calls, [])

/-- `storeExchangeInternal` of `SemanticMemoryIntegration.ts`: derive both
sides' text from text blocks only, sanitize both, skip when both are
empty, otherwise issue the `store_exchange` call. -/
def storeExchangeInternal (env : Env) (userMessage assistantMessage : Msg)
    (taskId : String) : List RemoteCall :=
  if !(isAvailable env.servers) then []
  else
    let userMessageText := contentToText userMessage.content
    let assistantResponseText := contentToText assistantMessage.content
    let cleanedUserMessage := cleanMessageContent userMessageText
    let cleanedAssistantResponse := cleanMessageContent assistantResponseText
    if cleanedUserMessage = "" && cleanedAssistantResponse = "" then []
    else
      [RemoteCall.storeExchange
        ⟨cleanedUserMessage, cleanedAssistantResponse, taskId,
         userMessage.ts, assistantMessage.ts⟩]

/-! ## Enrichment handler (`SemanticMemoryIntegration.ts`) -/

/-- `item.score?.toFixed(4) || "N/A"`: absent score — or an empty (falsy)
rendering — displays as "N/A". -/
def scoreDisplay : Option String → String
  | none => "N/A"
  | some s => if s = "" then "N/A" else s

/-- `Memory ${index+1} (Source: …, Score: …):\n{text}` for each item,
starting at display index `i + 1`. -/
def formatMemoriesFrom (i : Nat) : List RecalledMemoryItem → List String
  | [] => []
  | item :: rest =>
    ("Memory " ++ natStr (i + 1) ++ " (Source: " ++ item.sourceId ++
      ", Score: " ++ scoreDisplay item.score ++ "):\n" ++ item.text)
      :: formatMemoriesFrom (i + 1) rest

/-- The injected recall block's full text. -/
def recallBlockText (recalledMemories : List RecalledMemoryItem) : String :=
  "[Recalled Memories]\n" ++ joinSep "\n---\n" (formatMemoriesFrom 0 recalledMemories)
    ++ "\n[/Recalled Memories]"

def memoryContextBlock (recalledMemories : List RecalledMemoryItem) : ContentBlock :=
  .text (recallBlockText recalledMemories)

/-- `item.score?.toFixed(4) || "N/A"` on a raw score: nullish
short-circuits to `undefined` and the `||` yields "N/A" (as it would for
a falsy rendering); a number renders; any other value throws when the
`undefined` `toFixed` is called. -/
def rawScoreDisplay : JsScore → Except Unit String
  | .nullish => .ok "N/A"
  | .num s => .ok (if s = "" then "N/A" else s)
  | .nonNum => .error ()

/-- The formatting callback of `handleBeforeUserMessageEnrichment` on one
unvalidated element: `item.sourceId` throws on a nullish item; otherwise
the template renders around the raw score display. -/
def formatRawMemory (i : Nat) : RawMemoryItem → Except Unit String
  | .nullish => .error ()
  | .obj text sourceId score =>
    (rawScoreDisplay score).map fun sd =>
      "Memory " ++ natStr (i + 1) ++ " (Source: " ++ sourceId ++
        ", Score: " ++ sd ++ "):\n" ++ text

/-- `recalledMemories.map((item, index) => …)`: elements are rendered
left to right and the first throw aborts the map — uncaught, it rejects
the enclosing promise. -/
def formatRawMemoriesFrom (i : Nat) : List RawMemoryItem → Except Unit (List String)
  | [] => .ok []
  | item :: rest =>
    match formatRawMemory i item with
    | .error e => .error e
    | .ok s =>
      match formatRawMemoriesFrom (i + 1) rest with
      | .error e => .error e
      | .ok parts => .ok (s :: parts)

structure UserMessageEnrichmentPayload where
  taskId : String
  userContent : List ContentBlock
  currentHistorySlice : List Msg
deriving Repr

/-- The stale-block filter: a text block whose trimmed text starts with
the recall marker is dropped. -/
def isStaleRecallBlock : ContentBlock → Bool
  | .text t => isPrefixC recallOpen (trimChars t.data)
  | _ => false

/-- Query-part extraction of the enrichment handler: text blocks, then
`tool_result` string content, then the text inner blocks of array-shaped
`tool_result` content (one level deep, as in the source). -/
def queryParts : List ContentBlock → List String
  | [] => []
  | .text t :: rest => t :: queryParts rest
  | .toolResult (.str s) :: rest => s :: queryParts rest
  | .toolResult (.arr inner) :: rest =>
    (inner.filterMap fun b => match b with | .text t => some t | _ => none)
      ++ queryParts rest
  | .toolResult .missing :: rest => queryParts rest
  | .image :: rest => queryParts rest
  | .otherBlock :: rest => queryParts rest

/-- The async body pushed by `handleBeforeUserMessageEnrichment`: task
guard, stale-block filter, query derivation and sanitization, optional
enrichment call, optional prepend.  Returns the final `userContent`
together with the remote calls made.  `Except.error` models a rejected
promise: oracle failures are absorbed inside `enrichWithContextInternal`,
but the formatting callback runs outside any `try`/`catch`, so a throw
there (a malformed recalled element) rejects the promise. -/
def enrichmentPromise (env : Env) (taskId : String)
    (payload : UserMessageEnrichmentPayload) :
    Except Unit (List ContentBlock × List RemoteCall) :=
  if payload.taskId ≠ taskId then .ok (payload.userContent, [])
  else
    let userContent := payload.userContent.filter fun block => !isStaleRecallBlock block
    let rawUserQuery := joinSep "\n\n" (queryParts userContent)
    let userQuery := cleanMessageContent rawUserQuery
    if userQuery = "" then .ok (userContent, [])
    else
      let res := enrichWithContextInternal env userQuery payload.currentHistorySlice
      if res.2.length > 0 then
        match formatRawMemoriesFrom 0 res.2 with
        | .error e => .error e
        | .ok parts =>
          .ok (ContentBlock.text ("[Recalled Memories]\n" ++
              joinSep "\n---\n" parts ++ "\n[/Recalled Memories]") :: userContent,
            res.1)
      else .ok (userContent, res.1)

/-- `handleBeforeUserMessageEnrichment`: synchronously pushes exactly the
one promise built above onto `payload.promises`. -/
def handleBeforeUserMessageEnrichment (env : Env) (taskId : String)
    (payload : UserMessageEnrichmentPayload) :
    List (Except Unit (List ContentBlock × List RemoteCall)) :=
  [enrichmentPromise env taskId payload]

structure AssistantResponseProcessedPayload where
  taskId : String
  userMessage : Msg
  assistantMessage : Msg
deriving Repr

/-- `handleAfterAssistantResponseProcessed` of
`SemanticMemoryIntegration.ts`: task guard, then always a direct
single-exchange store. -/
def handleAfterAssistantResponseProcessed (env : Env) (taskId : String)
    (payload : AssistantResponseProcessedPayload) : List RemoteCall :=
  if payload.taskId ≠ taskId then []
  else storeExchangeInternal env payload.userMessage payload.assistantMessage payload.taskId

/-- `(findSub …).isSome`: JavaScript `String.prototype.includes`. -/
def containsSub (pat s : Chars) : Bool := (findSub pat s).isSome

/-!
## The `syncHistory` source version

The second shipped version of the class (the one carrying
`lastStoredMessageIndex` and `syncHistory`); its `cleanMessageContent`,
`enrichWithContextInternal` and `isAvailable` are byte-identical to the
definitions above and are shared.
-/

namespace Sync

def umOpen : Chars := "<user_message>".data
def umClose : Chars := "</user_message>".data

/-- First match of `/<user_message>([\s\S]*?)<\/user_message>/`
(non-global, lazy): the capture group's text, if the pattern matches. -/
def extractUserMessageTag (s : Chars) : Option Chars :=
  match findSub umOpen s with
  | some i =>
    let after := s.drop (i + umOpen.length)
    match findSub umClose after with
    | some j => some (after.take j)
    | none => none
  | none => none

/-- `storeExchangeInternal` of the `syncHistory` version: if a non-empty
`<user_message>` section is found its trimmed inner text is stored,
otherwise the raw derived user text; only the assistant's side is
sanitized; skip when both results are empty. -/
def storeExchangeInternal (env : Env) (userMessage assistantMessage : Msg)
    (taskId : String) : List RemoteCall :=
  if !(isAvailable env.servers) then []
  else
    let userMessageText := contentToText userMessage.content
    let assistantResponseText := contentToText assistantMessage.content
    let finalUserMessageToStore : String :=
      match extractUserMessageTag userMessageText.data with
      | some inner => if inner.isEmpty then userMessageText else ⟨trimChars inner⟩
      | none => userMessageText
    let cleanedAssistantResponse := cleanMessageContent assistantResponseText
    if finalUserMessageToStore = "" && cleanedAssistantResponse = "" then []
    else
      [RemoteCall.storeExchange
        ⟨finalUserMessageToStore, cleanedAssistantResponse, taskId,
         userMessage.ts, assistantMessage.ts⟩]

/-- `history[i]` with a JavaScript-style (possibly negative) index. -/
def getI (hist : List Msg) (i : Int) : Option Msg :=
  if i < 0 then none else hist[i.toNat]?

/-- The scan loop of `syncHistory` (source step 3): from index `i`, store
each consecutive user-then-assistant pair, setting the cursor to the
assistant's index and jumping past it; skip any other position without
touching the cursor.  Fuel-driven for kernel evaluation. -/
def syncLoopF (env : Env) (hist : List Msg) (taskId : String) :
    Nat → Int → Int → Int × List RemoteCall
  | 0, _, c => (c, [])
  | fuel + 1, i, c =>
    if i < (hist.length : Int) then
      match getI hist i, getI hist (i + 1) with
      | some userMessage, some assistantMessage =>
        if userMessage.role = "user" && assistantMessage.role = "assistant" then
          let calls := storeExchangeInternal env userMessage assistantMessage taskId
          let next := syncLoopF env hist taskId fuel (i + 2) (i + 1)
          (next.1, calls ++ next.2)
        else syncLoopF env hist taskId fuel (i + 1) c
      | _, _ => syncLoopF env hist taskId fuel (i + 1) c
    else (c, [])

/-- The response handling of source step 1 (lines 69–90): the numeric
result is unused, but a parse failure — or the unchecked
`content[0].type` access on an empty content array — throws into the
outer catch. -/
def chunkProbe (env : Env) (response : McpResponse) : Except Unit Unit :=
  match response with
  | some [] => .error ()
  | some (RespContent.text t :: _) => (env.parseJson t).map fun _ => ()
  | _ => .ok ()

/-- `syncHistory()`: availability gate; `get_last_chunk_index` probe whose
numeric result is unused (a thrown call or parse aborts via the outer
catch with the cursor untouched); then the scan loop from `cursor + 1`.
Returns the new cursor and the calls made. -/
def syncHistory (env : Env) (taskId : String) (hist : List Msg)
    (lastStoredMessageIndex : Int) : Int × List RemoteCall :=
  if !(isAvailable env.servers) then (lastStoredMessageIndex, [])
  else
    match env.callTool (.getLastChunkIndex taskId) with
    | .error _ => (lastStoredMessageIndex, [RemoteCall.getLastChunkIndex taskId])
    | .ok response =>
      match chunkProbe env response with
      | .error _ => (lastStoredMessageIndex, [RemoteCall.getLastChunkIndex taskId])
      | .ok _ =>
        if (hist.length : Int) ≤ lastStoredMessageIndex + 1 then
          (lastStoredMessageIndex, [RemoteCall.getLastChunkIndex taskId])
        else
          ((syncLoopF env hist taskId
              (((hist.length : Int) - (lastStoredMessageIndex + 1)).toNat)
              (lastStoredMessageIndex + 1) lastStoredMessageIndex).1,
            RemoteCall.getLastChunkIndex taskId ::
              (syncLoopF env hist taskId
                (((hist.length : Int) - (lastStoredMessageIndex + 1)).toNat)
                (lastStoredMessageIndex + 1) lastStoredMessageIndex).2)

def attemptCompletionMarker : Chars := "<attempt_completion>".data

/-- `handleAfterAssistantResponseProcessed` of the `syncHistory` version:
task guard; derive the assistant's text from its text blocks; when the
completion marker is present run a full `syncHistory`, otherwise do
nothing. -/
def handleAfterAssistantResponseProcessed (env : Env) (taskId : String)
    (hist : List Msg) (lastStoredMessageIndex : Int)
    (payload : AssistantResponseProcessedPayload) : Int × List RemoteCall :=
  if payload.taskId ≠ taskId then (lastStoredMessageIndex, [])
  else
    let assistantMessageText := contentToText payload.assistantMessage.content
    if containsSub attemptCompletionMarker assistantMessageText.data then
      syncHistory env taskId hist lastStoredMessageIndex
    else (lastStoredMessageIndex, [])

/-- One `syncHistory()` invocation's context: registry/oracle state and
the transcript at call time. -/
structure SyncCall where
  env : Env
  taskId : String
  hist : List Msg

/-- The cursor after a sequence of `syncHistory()` calls. -/
def syncMany : List SyncCall → Int → Int
  | [], c => c
  | sc :: rest, c => syncMany rest (syncHistory sc.env sc.taskId sc.hist c).1

end Sync

/-! ## Generic facts about the scanning passes -/

theorem replaceMatchesF_irrel (m : Chars → Option Nat) (rep : Chars) :
    ∀ (f g : Nat) (s : Chars), s.length ≤ f → s.length ≤ g →
      replaceMatchesF m rep f s = replaceMatchesF m rep g s := by
  intro f
  induction f with
  | zero =>
    intro g s hf _
    have : s = [] := List.length_eq_zero.mp (Nat.le_zero.mp hf)
    subst this
    cases g <;> rfl
  | succ f ih =>
    intro g s hf hg
    cases s with
    | nil => cases g <;> rfl
    | cons c rest =>
      cases g with
      | zero => simp at hg
      | succ g' =>
        simp only [replaceMatchesF]
        cases hmatch : m (c :: rest) with
        | none =>
          have := ih g' rest (by simpa using Nat.lt_succ_iff.mp (Nat.lt_of_lt_of_le (Nat.lt_succ_self _) hf))
          exact congrArg (c :: ·) (ih g' rest (by simp at hf; omega) (by simp at hg; omega))
        | some n =>
          cases n with
          | zero =>
            exact congrArg (c :: ·) (ih g' rest (by simp at hf; omega) (by simp at hg; omega))
          | succ n =>
            refine congrArg (rep ++ ·) (ih g' (rest.drop n) ?_ ?_) <;>
              simp only [List.length_drop] <;> simp at hf hg <;> omega

theorem replaceMatches_cons_match {m : Chars → Option Nat} {rep : Chars}
    {c : Char} {rest : Chars} {n : Nat} (h : m (c :: rest) = some (n + 1)) :
    replaceMatches m rep (c :: rest) = rep ++ replaceMatches m rep (rest.drop n) := by
  simp only [replaceMatches, List.length_cons, replaceMatchesF, h]
  exact congrArg (rep ++ ·)
    (replaceMatchesF_irrel m rep rest.length (rest.drop n).length (rest.drop n)
      (by simp [List.length_drop]) (le_refl _))

theorem replaceMatches_cons_nomatch {m : Chars → Option Nat} {rep : Chars}
    {c : Char} {rest : Chars} (h : m (c :: rest) = none) :
    replaceMatches m rep (c :: rest) = c :: replaceMatches m rep rest := by
  simp only [replaceMatches, List.length_cons, replaceMatchesF, h]

/-- A pass whose matcher fires on no (nonempty) suffix is the identity. -/
theorem replaceMatches_eq_self {m : Chars → Option Nat} {rep : Chars} :
    ∀ {s : Chars}, (∀ t, t <:+ s → t ≠ [] → m t = none) →
      replaceMatches m rep s = s := by
  intro s
  induction s with
  | nil => intro _; rfl
  | cons c rest ih =>
    intro h
    rw [replaceMatches_cons_nomatch (h _ (List.suffix_refl _) (by simp))]
    exact congrArg (c :: ·)
      (ih fun t ht hne => h t (ht.trans (List.suffix_cons c rest)) hne)

/-- A pass whose matcher only fires on suffixes starting with `ch` is the
identity on strings not containing `ch`. -/
theorem replaceMatches_eq_self_of_head {m : Chars → Option Nat} {rep : Chars}
    (ch : Char) (hm : ∀ t n, m t = some n → t.head? = some ch)
    {s : Chars} (hs : ch ∉ s) : replaceMatches m rep s = s := by
  refine replaceMatches_eq_self fun t ht hne => ?_
  cases hmc : m t with
  | none => rfl
  | some n =>
    exfalso
    have hhead := hm t n hmc
    cases t with
    | nil => simp at hhead
    | cons c rest =>
      simp only [List.head?_cons, Option.some.injEq] at hhead
      exact hs (ht.sublist.mem (hhead ▸ List.mem_cons_self c rest))

/-- When the matcher covers the whole (nonempty) string, deletion empties it. -/
theorem deleteMatches_eq_nil {m : Chars → Option Nat} {s : Chars}
    (h : m s = some s.length) (hne : s ≠ []) : deleteMatches m s = [] := by
  cases s with
  | nil => exact absurd rfl hne
  | cons c rest =>
    simp only [List.length_cons] at h
    simp only [deleteMatches, replaceMatches_cons_match h, List.drop_length,
      List.nil_append]
    rfl

theorem mem_replaceMatchesF {m : Chars → Option Nat} {rep : Chars} {c : Char} :
    ∀ (f : Nat) (s : Chars), c ∈ replaceMatchesF m rep f s → c ∈ s ∨ c ∈ rep := by
  intro f
  induction f with
  | zero => intro s h; exact Or.inl h
  | succ f ih =>
    intro s h
    cases s with
    | nil => simp [replaceMatchesF] at h
    | cons a rest =>
      simp only [replaceMatchesF] at h
      cases hmatch : m (a :: rest) with
      | none =>
        rw [hmatch] at h
        rcases List.mem_cons.mp h with h | h
        · exact Or.inl (by simp [h])
        · rcases ih rest h with h' | h'
          · exact Or.inl (List.mem_cons_of_mem _ h')
          · exact Or.inr h'
      | some n =>
        cases n with
        | zero =>
          rw [hmatch] at h
          rcases List.mem_cons.mp h with h | h
          · exact Or.inl (by simp [h])
          · rcases ih rest h with h' | h'
            · exact Or.inl (List.mem_cons_of_mem _ h')
            · exact Or.inr h'
        | succ n =>
          rw [hmatch] at h
          rcases List.mem_append.mp h with h | h
          · exact Or.inr h
          · rcases ih (rest.drop n) h with h' | h'
            · exact Or.inl (List.mem_cons_of_mem _ ((List.drop_sublist n rest).mem h'))
            · exact Or.inr h'

theorem mem_replaceMatches {m : Chars → Option Nat} {rep : Chars} {c : Char}
    {s : Chars} (h : c ∈ replaceMatches m rep s) : c ∈ s ∨ c ∈ rep :=
  mem_replaceMatchesF s.length s h

theorem mem_deleteMatches {m : Chars → Option Nat} {c : Char} {s : Chars}
    (h : c ∈ deleteMatches m s) : c ∈ s := by
  rcases mem_replaceMatches h with h' | h'
  · exact h'
  · simp at h'

/-! ## Head characters of the matchers -/

theorem isPrefixC_head {p : Char} {ps t : Chars}
    (h : isPrefixC (p :: ps) t = true) : t.head? = some p := by
  cases t with
  | nil => simp [isPrefixC] at h
  | cons c cs =>
    simp only [isPrefixC, Bool.and_eq_true, decide_eq_true_eq] at h
    simp [h.1]

theorem matchBlock_head {p : Char} {ps close t : Chars} {n : Nat}
    (h : matchBlock (p :: ps) close t = some n) : t.head? = some p := by
  simp only [matchBlock] at h
  by_cases hp : isPrefixC (p :: ps) t = true
  · exact isPrefixC_head hp
  · simp [hp] at h

theorem matchOpenTag_head {tag t : Chars} {n : Nat}
    (h : matchOpenTag tag t = some n) : t.head? = some '<' := by
  simp only [matchOpenTag] at h
  by_cases hp : isPrefixC ('<' :: tag) t = true
  · exact isPrefixC_head hp
  · simp [hp] at h

theorem matchToolBlock_head {tag t : Chars} {n : Nat}
    (h : matchToolBlock tag t = some n) : t.head? = some '<' := by
  simp only [matchToolBlock] at h
  cases ho : matchOpenTag tag t with
  | none => rw [ho] at h; simp at h
  | some o => exact matchOpenTag_head ho

theorem matchSelfClose_head {t : Chars} {n : Nat}
    (h : matchSelfClose t = some n) : t.head? = some '<' := by
  rw [matchSelfClose.eq_def] at h
  split at h
  · rfl
  · simp at h

theorem matchLit_head {p : Char} {ps t : Chars} {n : Nat}
    (h : matchLit (p :: ps) t = some n) : t.head? = some p := by
  simp only [matchLit] at h
  by_cases hp : isPrefixC (p :: ps) t = true
  · exact isPrefixC_head hp
  · simp [hp] at h

theorem matchGenericTag_head {t : Chars} {n : Nat}
    (h : matchGenericTag t = some n) : t.head? = some '<' := by
  rw [matchGenericTag.eq_def] at h
  split at h
  · rfl
  · simp at h

theorem matchBlankRun_head {t : Chars} {n : Nat}
    (h : matchBlankRun t = some n) : t.head? = some '\n' := by
  rw [matchBlankRun.eq_def] at h
  split at h
  · rfl
  · simp at h

/-! ## Identity of fold-driven tag passes -/

theorem foldl_eq_self {α β : Type} {g : β → α → α} {tags : List β} {s : α}
    (h : ∀ tag ∈ tags, g tag s = s) :
    tags.foldl (fun acc tag => g tag acc) s = s := by
  induction tags with
  | nil => rfl
  | cons t ts ih =>
    simp only [List.foldl_cons, h t (List.mem_cons_self t ts)]
    exact ih fun tag htag => h tag (List.mem_cons_of_mem t htag)

/-! ## Trim -/

theorem dropWhile_head_not {p : Char → Bool} :
    ∀ {l : Chars} {c : Char}, (l.dropWhile p).head? = some c → p c = false := by
  intro l
  induction l with
  | nil => intro c h; simp [List.dropWhile] at h
  | cons a rest ih =>
    intro c h
    by_cases ha : p a
    · rw [List.dropWhile_cons_of_pos ha] at h
      exact ih h
    · rw [List.dropWhile_cons_of_neg ha] at h
      simp only [List.head?_cons, Option.some.injEq] at h
      subst h
      exact Bool.eq_false_iff.mpr ha

theorem dropWhile_dropWhile {p : Char → Bool} {l : Chars} :
    (l.dropWhile p).dropWhile p = l.dropWhile p := by
  cases h : l.dropWhile p with
  | nil => rfl
  | cons c cs =>
    have hc : p c = false := dropWhile_head_not (by rw [h]; rfl)
    rw [List.dropWhile_cons_of_neg (by simp [hc])]

theorem trimChars_front (s : Chars) : trimChars s <+: s.dropWhile isWsChar := by
  unfold trimChars
  have h2 : (s.dropWhile isWsChar).reverse.dropWhile isWsChar <:+
      (s.dropWhile isWsChar).reverse := List.dropWhile_suffix _
  rw [← List.reverse_suffix]
  simpa using h2

theorem trimChars_isInfix (s : Chars) : trimChars s <:+: s :=
  (trimChars_front s).isInfix.trans (List.dropWhile_suffix _).isInfix

theorem mem_trimChars {c : Char} {s : Chars} (h : c ∈ trimChars s) : c ∈ s :=
  (trimChars_isInfix s).sublist.mem h

theorem trimChars_head_not {s : Chars} {c : Char}
    (h : (trimChars s).head? = some c) : isWsChar c = false := by
  unfold trimChars at h
  set A := s.dropWhile isWsChar with hA
  set B := A.reverse.dropWhile isWsChar with hB
  rw [List.head?_reverse] at h
  have hBne : B ≠ [] := by
    intro hnil
    rw [hnil] at h
    simp at h
  have hBsuf : B <:+ A.reverse := List.dropWhile_suffix _
  have hlast : B.getLast? = A.reverse.getLast? := by
    obtain ⟨t, ht⟩ := hBsuf
    rw [← ht]
    exact (List.getLast?_append_of_ne_nil _ hBne).symm
  have hrev : A.reverse.getLast? = A.head? := by
    rw [← List.head?_reverse, List.reverse_reverse]
  rw [hlast, hrev] at h
  exact dropWhile_head_not h

theorem trimChars_idem (s : Chars) : trimChars (trimChars s) = trimChars s := by
  have h1 : (trimChars s).dropWhile isWsChar = trimChars s := by
    cases h : trimChars s with
    | nil => rfl
    | cons c cs =>
      have hc : isWsChar c = false := trimChars_head_not (by rw [h]; rfl)
      rw [List.dropWhile_cons_of_neg (by simp [hc])]
  have h2 : (trimChars s).reverse.dropWhile isWsChar = (trimChars s).reverse := by
    have hrev : (trimChars s).reverse =
        (s.dropWhile isWsChar).reverse.dropWhile isWsChar := by
      unfold trimChars
      rw [List.reverse_reverse]
    rw [hrev, dropWhile_dropWhile]
  show ((((trimChars s).dropWhile isWsChar).reverse).dropWhile isWsChar).reverse
    = trimChars s
  rw [h1, h2, List.reverse_reverse]

/-! ## The blank-line pass: normal form and idempotence -/

/-- The blank-line pass (`replace(/\n\s*\n/g, "\n\n")`) by itself. -/
def collapseBlank (s : Chars) : Chars :=
  replaceMatches matchBlankRun ['\n', '\n'] s

theorem collapseBlank_def (s : Chars) :
    collapseBlank s = replaceMatches matchBlankRun ['\n', '\n'] s := by
  simp only [collapseBlank]

theorem mem_collapseBlank {c : Char} {s : Chars} (h : c ∈ collapseBlank s) :
    c ∈ s ∨ c = '\n' := by
  rw [collapseBlank_def] at h
  rcases mem_replaceMatches h with h2 | h2
  · exact Or.inl h2
  · simp only [List.mem_cons, List.not_mem_nil, or_false] at h2
    tauto

theorem collapseBlank_cons_nomatch {c : Char} {rest : Chars}
    (h : matchBlankRun (c :: rest) = none) :
    collapseBlank (c :: rest) = c :: collapseBlank rest :=
  replaceMatches_cons_nomatch h

theorem collapseBlank_cons_match {c : Char} {rest : Chars} {n : Nat}
    (h : matchBlankRun (c :: rest) = some (n + 1)) :
    collapseBlank (c :: rest) = '\n' :: '\n' :: collapseBlank (rest.drop n) :=
  replaceMatches_cons_match h

theorem matchBlankRun_none_of_head {c : Char} {rest : Chars} (hc : c ≠ '\n') :
    matchBlankRun (c :: rest) = none := by
  cases hm : matchBlankRun (c :: rest) with
  | none => rfl
  | some n =>
    have := matchBlankRun_head hm
    simp only [List.head?_cons, Option.some.injEq] at this
    exact absurd this hc

theorem matchBlankRun_eq_cons {v : Chars} {j : Nat}
    (hl : lastIdxOf '\n' (v.takeWhile isWsChar) = some j) :
    matchBlankRun ('\n' :: v) = some (j + 2) := by
  simp only [matchBlankRun, hl]
  congr 1
  omega

theorem matchBlankRun_none_cons {v : Chars}
    (hl : lastIdxOf '\n' (v.takeWhile isWsChar) = none) :
    matchBlankRun ('\n' :: v) = none := by
  simp only [matchBlankRun, hl]

theorem matchBlankRun_cons_eq {v : Chars} {n : Nat}
    (h : matchBlankRun ('\n' :: v) = some n) :
    ∃ j, lastIdxOf '\n' (v.takeWhile isWsChar) = some j ∧ n = j + 2 := by
  cases hl : lastIdxOf '\n' (v.takeWhile isWsChar) with
  | none => rw [matchBlankRun_none_cons hl] at h; exact absurd h (by simp)
  | some j =>
    rw [matchBlankRun_eq_cons hl] at h
    exact ⟨j, rfl, (Option.some.inj h).symm⟩

theorem lastIdxOf_eq_none_iff {c : Char} : ∀ {l : Chars},
    lastIdxOf c l = none ↔ c ∉ l
  | [] => by simp [lastIdxOf]
  | a :: r => by
    have ih := lastIdxOf_eq_none_iff (c := c) (l := r)
    simp only [lastIdxOf, List.mem_cons]
    cases hr : lastIdxOf c r with
    | some j =>
      have : c ∈ r := by
        by_contra hmem
        rw [ih.mpr hmem] at hr
        exact absurd hr (by simp)
      simp [this]
    | none =>
      have hnot : c ∉ r := ih.mp hr
      by_cases hac : a = c
      · simp [hac]
      · have hca : ¬c = a := fun e => hac e.symm
        simp [hac, hnot, hca]

theorem lastIdxOf_lt_length {c : Char} : ∀ {l : Chars} {j : Nat},
    lastIdxOf c l = some j → j < l.length
  | [], j, h => by simp [lastIdxOf] at h
  | a :: r, j, h => by
    simp only [lastIdxOf] at h
    cases hr : lastIdxOf c r with
    | some k =>
      rw [hr] at h
      have := lastIdxOf_lt_length hr
      simp only [Option.some.injEq] at h
      simp [← h]
      omega
    | none =>
      rw [hr] at h
      by_cases hac : a = c
      · simp [hac] at h
        simp [← h]
      · simp [hac] at h

theorem lastIdxOf_zero_head {c : Char} {l : Chars}
    (h : lastIdxOf c l = some 0) : l.head? = some c := by
  cases l with
  | nil => simp [lastIdxOf] at h
  | cons a r =>
    simp only [lastIdxOf] at h
    cases hr : lastIdxOf c r with
    | some k => rw [hr] at h; simp at h
    | none =>
      rw [hr] at h
      by_cases hac : a = c
      · simp [hac]
      · simp [hac] at h

theorem lastIdxOf_cons_self_of_notMem {c : Char} {l : Chars} (h : c ∉ l) :
    lastIdxOf c (c :: l) = some 0 := by
  simp [lastIdxOf, lastIdxOf_eq_none_iff.mpr h]

theorem lastIdxOf_append_left {c : Char} : ∀ {l1 : Chars} (l2 : Chars) {j : Nat},
    lastIdxOf c l1 = some j → ∃ k, lastIdxOf c (l1 ++ l2) = some k ∧ j ≤ k
  | [], _, j, h => by simp [lastIdxOf] at h
  | a :: r, l2, j, h => by
    simp only [lastIdxOf] at h
    simp only [List.cons_append, lastIdxOf, List.append_eq]
    cases hr : lastIdxOf c r with
    | some m =>
      rw [hr] at h
      obtain ⟨k', hk', hmk'⟩ := lastIdxOf_append_left l2 hr
      refine ⟨k' + 1, by rw [hk'], ?_⟩
      have hmj : m + 1 = j := Option.some.inj h
      omega
    | none =>
      rw [hr] at h
      by_cases hac : a = c
      · rw [if_pos hac] at h
        have hj : j = 0 := (Option.some.inj h).symm
        subst hj
        cases hr2 : lastIdxOf c (r ++ l2) with
        | some k' => exact ⟨k' + 1, rfl, by omega⟩
        | none => exact ⟨0, by simp [hac], Nat.le_refl 0⟩
      · rw [if_neg hac] at h
        exact absurd h (by simp)

theorem lastIdxOf_notMem_drop {c : Char} : ∀ {l : Chars} {j : Nat},
    lastIdxOf c l = some j → c ∉ l.drop (j + 1)
  | [], j, h => by simp [lastIdxOf] at h
  | a :: r, j, h => by
    simp only [lastIdxOf] at h
    cases hr : lastIdxOf c r with
    | some k =>
      rw [hr] at h
      have hkj : k + 1 = j := Option.some.inj h
      subst hkj
      simpa using lastIdxOf_notMem_drop hr
    | none =>
      rw [hr] at h
      by_cases hac : a = c
      · rw [if_pos hac] at h
        have hj : j = 0 := (Option.some.inj h).symm
        subst hj
        simpa using lastIdxOf_eq_none_iff.mp hr
      · rw [if_neg hac] at h
        exact absurd h (by simp)

theorem takeWhile_isPrefix_append (p : Char → Bool) (v D : Chars) :
    ∃ E, (v ++ D).takeWhile p = v.takeWhile p ++ E := by
  induction v with
  | nil => exact ⟨D.takeWhile p, by simp⟩
  | cons a r ih =>
    by_cases hp : p a
    · obtain ⟨E, hE⟩ := ih
      exact ⟨E, by simp [List.takeWhile_cons, hp, hE]⟩
    · exact ⟨[], by simp [List.takeWhile_cons, hp]⟩

theorem takeWhile_all_append {p : Char → Bool} : ∀ {A V : Chars},
    (∀ c ∈ A, p c = true) → (∀ x, V.head? = some x → p x = false) →
    (A ++ V).takeWhile p = A
  | [], V, _, hV => by
    cases V with
    | nil => rfl
    | cons x xs =>
      rw [List.nil_append]
      exact List.takeWhile_cons_of_neg (by simp [hV x rfl])
  | a :: A', V, hA, hV => by
    rw [List.cons_append,
      List.takeWhile_cons_of_pos (hA a (List.mem_cons_self a A'))]
    rw [takeWhile_all_append (fun cc hcc => hA cc (List.mem_cons_of_mem a hcc)) hV]

/-- Collapsing preserves a newline-free leading whitespace run. -/
theorem takeWhile_collapseBlank : ∀ {u : Chars},
    '\n' ∉ u.takeWhile isWsChar →
    (collapseBlank u).takeWhile isWsChar = u.takeWhile isWsChar := by
  intro u
  induction u with
  | nil => intro _; rfl
  | cons c rest ih =>
    intro h
    by_cases hnl : c = '\n'
    · exfalso
      apply h
      rw [hnl, List.takeWhile_cons_of_pos (by decide)]
      exact List.mem_cons_self _ _
    · rw [collapseBlank_cons_nomatch (matchBlankRun_none_of_head hnl)]
      by_cases hw : isWsChar c
      · rw [List.takeWhile_cons_of_pos hw, List.takeWhile_cons_of_pos hw]
        refine congrArg (c :: ·) (ih fun hmem => h ?_)
        rw [List.takeWhile_cons_of_pos hw]
        exact List.mem_cons_of_mem _ hmem
      · rw [List.takeWhile_cons_of_neg hw, List.takeWhile_cons_of_neg hw]

/-- The blank-line pass's fixed points: every suffix match has length
exactly 2 (the span is literally `"\n\n"`). -/
def BlankNormal (z : Chars) : Prop :=
  ∀ t, t <:+ z → ∀ n, matchBlankRun t = some n → n = 2

theorem blankNormal_suffix {z t : Chars} (h : BlankNormal z) (hs : t <:+ z) :
    BlankNormal t := fun u hu n hm => h u (hu.trans hs) n hm

theorem matchBlankRun_two_le {t : Chars} {n : Nat}
    (h : matchBlankRun t = some n) : 2 ≤ n := by
  cases t with
  | nil => simp [matchBlankRun] at h
  | cons c v =>
    have hc : c = '\n' := by
      have := matchBlankRun_head h
      simpa using this
    subst hc
    obtain ⟨j, _, hn⟩ := matchBlankRun_cons_eq h
    omega

theorem collapseBlank_eq_self_of_normal_aux :
    ∀ (N : Nat) (z : Chars), z.length ≤ N → BlankNormal z →
      collapseBlank z = z := by
  intro N
  induction N with
  | zero =>
    intro z hz _
    have : z = [] := List.length_eq_zero.mp (Nat.le_zero.mp hz)
    subst this
    rfl
  | succ N ih =>
    intro z hz h
    cases z with
    | nil => rfl
    | cons c rest =>
      cases hm : matchBlankRun (c :: rest) with
      | none =>
        rw [collapseBlank_cons_nomatch hm]
        refine congrArg (c :: ·) (ih rest ?_ ?_)
        · simp only [List.length_cons] at hz; omega
        · exact blankNormal_suffix h (List.suffix_cons c rest)
      | some n =>
        have hn2 : n = 2 := h _ (List.suffix_refl _) n hm
        subst hn2
        have hc : c = '\n' := by
          have := matchBlankRun_head hm
          simpa using this
        subst hc
        obtain ⟨j, hj, hjn⟩ := matchBlankRun_cons_eq hm
        have hj0 : j = 0 := by omega
        subst hj0
        have hhead : rest.head? = some '\n' := by
          have h1 := lastIdxOf_zero_head hj
          rw [List.head?_takeWhile] at h1
          cases hr : rest.head? with
          | none => rw [hr] at h1; simp at h1
          | some x =>
            rw [hr] at h1
            simp only [Option.filter] at h1
            by_cases hwx : isWsChar x
            · rw [if_pos hwx] at h1
              rw [h1]
            · rw [if_neg hwx] at h1
              exact absurd h1 (by simp)
        obtain ⟨rest', rfl⟩ : ∃ rest', rest = '\n' :: rest' := by
          cases rest with
          | nil => simp at hhead
          | cons x r =>
            simp only [List.head?_cons, Option.some.injEq] at hhead
            exact ⟨r, by rw [hhead]⟩
        rw [collapseBlank_cons_match hm]
        show '\n' :: '\n' :: collapseBlank (('\n' :: rest').drop 1) = _
        simp only [List.drop_succ_cons, List.drop_zero]
        refine congrArg ('\n' :: '\n' :: ·) (ih rest' ?_ ?_)
        · simp only [List.length_cons] at hz; omega
        · exact blankNormal_suffix h
            ((List.suffix_cons '\n' rest').trans (List.suffix_cons '\n' _))

theorem blankNormal_collapseBlank_aux :
    ∀ (N : Nat) (s : Chars), s.length ≤ N → BlankNormal (collapseBlank s) := by
  intro N
  induction N with
  | zero =>
    intro s hs
    have : s = [] := List.length_eq_zero.mp (Nat.le_zero.mp hs)
    subst this
    intro t ht n hm
    rw [List.suffix_nil.mp ht] at hm
    simp [matchBlankRun] at hm
  | succ N ih =>
    intro s hs
    cases s with
    | nil =>
      intro t ht n hm
      rw [List.suffix_nil.mp ht] at hm
      simp [matchBlankRun] at hm
    | cons c rest =>
      cases hm : matchBlankRun (c :: rest) with
      | none =>
        rw [collapseBlank_cons_nomatch hm]
        intro t ht n hmt
        rcases List.suffix_cons_iff.mp ht with rfl | ht'
        · exfalso
          have hc : c = '\n' := by
            have := matchBlankRun_head hmt
            simpa using this
          subst hc
          have hnone : lastIdxOf '\n' (rest.takeWhile isWsChar) = none := by
            cases hl : lastIdxOf '\n' (rest.takeWhile isWsChar) with
            | none => rfl
            | some j =>
              rw [matchBlankRun_eq_cons hl] at hm
              exact absurd hm (by simp)
          have hnotin : '\n' ∉ rest.takeWhile isWsChar :=
            lastIdxOf_eq_none_iff.mp hnone
          have hnone2 : lastIdxOf '\n'
              ((collapseBlank rest).takeWhile isWsChar) = none := by
            rw [takeWhile_collapseBlank hnotin]
            exact hnone
          rw [matchBlankRun_none_cons hnone2] at hmt
          exact absurd hmt (by simp)
        · exact ih rest (by simp only [List.length_cons] at hs; omega) t ht' n hmt
      | some m =>
        have hc : c = '\n' := by
          have := matchBlankRun_head hm
          simpa using this
        subst hc
        obtain ⟨j, hj, hmj⟩ := matchBlankRun_cons_eq hm
        have hm' : matchBlankRun ('\n' :: rest) = some ((j + 1) + 1) := by
          rw [hm, hmj]
        rw [collapseBlank_cons_match hm']
        have hnotin : '\n' ∉ (rest.drop (j + 1)).takeWhile isWsChar := by
          have hjW : j < (rest.takeWhile isWsChar).length := lastIdxOf_lt_length hj
          have hdrop : rest.drop (j + 1) =
              (rest.takeWhile isWsChar).drop (j + 1) ++ rest.dropWhile isWsChar := by
            conv_lhs => rw [← List.takeWhile_append_dropWhile isWsChar rest]
            rw [List.drop_append_eq_append_drop]
            have hz : j + 1 - (rest.takeWhile isWsChar).length = 0 := by omega
            rw [hz, List.drop_zero]
          rw [hdrop, takeWhile_all_append
            (fun cc hcc => List.mem_takeWhile_imp ((List.drop_sublist _ _).mem hcc))
            (fun x hx => dropWhile_head_not hx)]
          exact lastIdxOf_notMem_drop hj
        intro t ht n hmt
        rcases List.suffix_cons_iff.mp ht with rfl | ht'
        · have hval : matchBlankRun
              ('\n' :: '\n' :: collapseBlank (rest.drop (j + 1))) = some 2 := by
            have hl : lastIdxOf '\n'
                (('\n' :: collapseBlank (rest.drop (j + 1))).takeWhile isWsChar) =
                some 0 := by
              rw [List.takeWhile_cons_of_pos (by decide),
                takeWhile_collapseBlank hnotin]
              exact lastIdxOf_cons_self_of_notMem hnotin
            simpa using matchBlankRun_eq_cons hl
          rw [hval] at hmt
          exact (Option.some.inj hmt).symm
        · rcases List.suffix_cons_iff.mp ht' with rfl | ht''
          · exfalso
            have hnone2 : lastIdxOf '\n'
                ((collapseBlank (rest.drop (j + 1))).takeWhile isWsChar) = none := by
              rw [takeWhile_collapseBlank hnotin]
              exact lastIdxOf_eq_none_iff.mpr hnotin
            rw [matchBlankRun_none_cons hnone2] at hmt
            exact absurd hmt (by simp)
          · refine ih (rest.drop (j + 1)) ?_ t ht'' n hmt
            simp only [List.length_cons] at hs
            have := List.length_drop (j + 1) rest
            omega

theorem matchBlankRun_append_mono {t D : Chars} {n : Nat}
    (h : matchBlankRun t = some n) :
    ∃ k, matchBlankRun (t ++ D) = some k ∧ n ≤ k := by
  cases t with
  | nil => simp [matchBlankRun] at h
  | cons c v =>
    have hc : c = '\n' := by
      have := matchBlankRun_head h
      simpa using this
    subst hc
    obtain ⟨j, hj, hn⟩ := matchBlankRun_cons_eq h
    obtain ⟨E, hE⟩ := takeWhile_isPrefix_append isWsChar v D
    obtain ⟨k, hk, hjk⟩ := lastIdxOf_append_left E hj
    refine ⟨k + 2, ?_, by omega⟩
    show matchBlankRun ('\n' :: (v ++ D)) = some (k + 2)
    apply matchBlankRun_eq_cons
    rw [hE]
    exact hk

theorem blankNormal_trimChars {y : Chars} (h : BlankNormal y) :
    BlankNormal (trimChars y) := by
  intro t ht n hm
  obtain ⟨D, hD⟩ := trimChars_front y
  obtain ⟨p, hp⟩ := ht
  have hsuffix : (t ++ D) <:+ y := by
    refine List.IsSuffix.trans ⟨p, ?_⟩ (List.dropWhile_suffix isWsChar)
    rw [← List.append_assoc, hp, hD]
  obtain ⟨k, hk, hnk⟩ := matchBlankRun_append_mono (D := D) hm
  have hk2 : k = 2 := h _ hsuffix k hk
  have hge := matchBlankRun_two_le hm
  omega

/-! ## Sanitizer behaviour on marker-free input -/

theorem matchBlock_head_of {opn close t : Chars} {n : Nat} {p : Char}
    (hopn : opn.head? = some p) (h : matchBlock opn close t = some n) :
    t.head? = some p := by
  cases opn with
  | nil => simp at hopn
  | cons q qs =>
    simp only [List.head?_cons, Option.some.injEq] at hopn
    exact hopn ▸ matchBlock_head h

theorem matchLit_head_of {pat t : Chars} {n : Nat} {p : Char}
    (hpat : pat.head? = some p) (h : matchLit pat t = some n) :
    t.head? = some p := by
  cases pat with
  | nil => simp at hpat
  | cons q qs =>
    simp only [List.head?_cons, Option.some.injEq] at hpat
    exact hpat ▸ matchLit_head h

/-- On input without `'<'` and `'['`, the whole sanitizer reduces to
blank-line collapsing followed by `trim`: every tag pass is the identity. -/
theorem cleanChars_eq_trim_collapse {s : Chars} (h1 : '<' ∉ s) (h2 : '[' ∉ s) :
    cleanChars s = trimChars (collapseBlank s) := by
  have e0 : deleteMatches (matchBlock envOpen envClose) s = s :=
    replaceMatches_eq_self_of_head '<'
      (fun t n h => matchBlock_head_of (by decide) h) h1
  have e1 : deleteMatches (matchBlock recallOpen recallClose) s = s :=
    replaceMatches_eq_self_of_head '['
      (fun t n h => matchBlock_head_of (by decide) h) h2
  have e2 : deleteMatches (matchBlock searchOpen replaceClose) s = s :=
    replaceMatches_eq_self_of_head '<'
      (fun t n h => matchBlock_head_of (by decide) h) h1
  have e3 : blockToolTags.foldl
      (fun acc tag => deleteMatches (matchToolBlock tag) acc) s = s :=
    foldl_eq_self fun tag _ =>
      replaceMatches_eq_self_of_head '<' (fun t n h => matchToolBlock_head h) h1
  have e4 : deleteMatches matchSelfClose s = s :=
    replaceMatches_eq_self_of_head '<' (fun t n h => matchSelfClose_head h) h1
  have e5 : toolTagsToRemove.foldl
      (fun acc tag =>
        deleteMatches (matchLit ('<' :: '/' :: (tag ++ ['>'])))
          (deleteMatches (matchOpenTag tag) acc)) s = s := by
    refine foldl_eq_self fun tag _ => ?_
    have inner : deleteMatches (matchOpenTag tag) s = s :=
      replaceMatches_eq_self_of_head '<' (fun t n h => matchOpenTag_head h) h1
    rw [inner]
    exact replaceMatches_eq_self_of_head '<'
      (fun t n h => matchLit_head_of
        (show ('<' :: '/' :: (tag ++ ['>'])).head? = some '<' from rfl) h) h1
  have e6 : deleteMatches matchGenericTag s = s :=
    replaceMatches_eq_self_of_head '<' (fun t n h => matchGenericTag_head h) h1
  simp only [cleanChars]
  rw [e0, e1, e2, e3, e4, e5, e6]
  rfl

theorem cleanMessageContent_data (s : String) :
    (cleanMessageContent s).data = cleanChars s.data := by
  simp only [cleanMessageContent]

end Paw

namespace Paw

set_option maxRecDepth 100000
set_option maxHeartbeats 1000000
set_option linter.constructorNameAsVariable false

/-!
## Claims
-/

/-- C1 (counterexample): the sanitizer is not idempotent.  Stripping the
`<args>` tag reassembles a recall block that only the second application
removes, so `sanitize(sanitize(x)) ≠ sanitize(x)` at this input. -/
theorem C1_sanitize_not_idempotent_counterexample :
    cleanMessageContent
        (cleanMessageContent "[Recalled Memories]A[/Recalled<args> Memories]")
      ≠ cleanMessageContent "[Recalled Memories]A[/Recalled<args> Memories]" := by
  decide

/-- C1 (amended): `cleanMessageContent` is idempotent on every input that
contains neither `'<'` nor `'['` (on such input every tag pass is the
identity, one application normalizes all blank-line runs and trims, and
the result is a fixed point of both remaining steps). -/
theorem C1_sanitize_idempotent_on_markerFree (s : String)
    (h1 : '<' ∉ s.data) (h2 : '[' ∉ s.data) :
    cleanMessageContent (cleanMessageContent s) = cleanMessageContent s := by
  have hclean : (cleanMessageContent s).data = trimChars (collapseBlank s.data) := by
    rw [cleanMessageContent_data, cleanChars_eq_trim_collapse h1 h2]
  have hmemz : ∀ c, c ∈ trimChars (collapseBlank s.data) → c ∈ s.data ∨ c = '\n' :=
    fun c hc => mem_collapseBlank (mem_trimChars hc)
  have h1' : '<' ∉ trimChars (collapseBlank s.data) := fun hc => by
    rcases hmemz _ hc with h | h
    · exact h1 h
    · simp at h
  have h2' : '[' ∉ trimChars (collapseBlank s.data) := fun hc => by
    rcases hmemz _ hc with h | h
    · exact h2 h
    · simp at h
  have hnormal : BlankNormal (collapseBlank s.data) :=
    blankNormal_collapseBlank_aux s.data.length s.data (le_refl _)
  have hfix : collapseBlank (trimChars (collapseBlank s.data)) =
      trimChars (collapseBlank s.data) :=
    collapseBlank_eq_self_of_normal_aux _ _ (le_refl _)
      (blankNormal_trimChars hnormal)
  apply String.ext
  calc (cleanMessageContent (cleanMessageContent s)).data
      = cleanChars (cleanMessageContent s).data := cleanMessageContent_data _
    _ = cleanChars (trimChars (collapseBlank s.data)) :=
        congrArg cleanChars hclean
    _ = trimChars (collapseBlank (trimChars (collapseBlank s.data))) :=
        cleanChars_eq_trim_collapse h1' h2'
    _ = trimChars (trimChars (collapseBlank s.data)) := congrArg trimChars hfix
    _ = trimChars (collapseBlank s.data) := trimChars_idem _
    _ = (cleanMessageContent s).data := hclean.symm

/-- C1 (witness): the amended idempotence theorem applied at `" a b "`. -/
theorem C1_sanitize_idempotent_witness :
    cleanMessageContent (cleanMessageContent " a b ") = cleanMessageContent " a b " :=
  C1_sanitize_idempotent_on_markerFree " a b " (by decide) (by decide)

/-- The cursor value `j` designates an assistant message immediately
following a user message in `hist`. -/
def syncPairAt (hist : List Msg) (j : Int) : Prop :=
  ∃ u a, Sync.getI hist (j - 1) = some u ∧ Sync.getI hist j = some a ∧
    u.role = "user" ∧ a.role = "assistant"

theorem syncLoopF_cursor (env : Env) (hist : List Msg) (tid : String) :
    ∀ (fuel : Nat) (i c : Int),
      (Sync.syncLoopF env hist tid fuel i c).1 = c ∨
      (i ≤ (Sync.syncLoopF env hist tid fuel i c).1 ∧
        syncPairAt hist (Sync.syncLoopF env hist tid fuel i c).1) := by
  intro fuel
  induction fuel with
  | zero => intro i c; exact Or.inl rfl
  | succ fuel ih =>
    intro i c
    simp only [Sync.syncLoopF]
    split
    · split
      · next u a hu ha =>
        split
        · next hroles =>
          simp only [Bool.and_eq_true, decide_eq_true_eq] at hroles
          rcases ih (i + 2) (i + 1) with h | ⟨hle, hpair⟩
          · refine Or.inr ⟨by rw [h]; omega, ?_⟩
            rw [h]
            exact ⟨u, a, by simpa using hu, ha, hroles.1, hroles.2⟩
          · exact Or.inr ⟨by omega, hpair⟩
        · rcases ih (i + 1) c with h | ⟨hle, hpair⟩
          · exact Or.inl h
          · exact Or.inr ⟨by omega, hpair⟩
      · rcases ih (i + 1) c with h | ⟨hle, hpair⟩
        · exact Or.inl h
        · exact Or.inr ⟨by omega, hpair⟩
    · exact Or.inl rfl

theorem syncHistory_cursor (env : Env) (tid : String) (hist : List Msg) (c : Int) :
    c ≤ (Sync.syncHistory env tid hist c).1 ∧
    ((Sync.syncHistory env tid hist c).1 = c ∨
      syncPairAt hist (Sync.syncHistory env tid hist c).1) := by
  unfold Sync.syncHistory
  split
  · exact ⟨le_refl c, Or.inl rfl⟩
  · split
    · exact ⟨le_refl c, Or.inl rfl⟩
    · split
      · exact ⟨le_refl c, Or.inl rfl⟩
      · split
        · exact ⟨le_refl c, Or.inl rfl⟩
        · rcases syncLoopF_cursor env hist tid
              (((hist.length : Int) - (c + 1)).toNat) (c + 1) c with h | ⟨hle, hpair⟩
          · exact ⟨by rw [h], Or.inl h⟩
          · exact ⟨by omega, Or.inr hpair⟩

/-- C3: cursor monotonicity.  Over any sequence of `syncHistory()` calls
(each with its own registry state, oracle behaviour and transcript) and
from any starting cursor — in particular the initial `-1` — the cursor
never decreases, and whenever it has moved it points at an assistant
message immediately following a user message of the transcript of the
call that set it; positions not forming such a pair never advance it. -/
theorem C3_sync_cursor_monotone_and_valid (calls : List Sync.SyncCall) (c : Int) :
    c ≤ Sync.syncMany calls c ∧
    (Sync.syncMany calls c = c ∨
      ∃ sc ∈ calls, syncPairAt sc.hist (Sync.syncMany calls c)) := by
  induction calls generalizing c with
  | nil => exact ⟨le_refl c, Or.inl rfl⟩
  | cons sc rest ih =>
    simp only [Sync.syncMany]
    obtain ⟨hle1, hd1⟩ := syncHistory_cursor sc.env sc.taskId sc.hist c
    obtain ⟨hle2, hd2⟩ := ih (Sync.syncHistory sc.env sc.taskId sc.hist c).1
    refine ⟨le_trans hle1 hle2, ?_⟩
    rcases hd2 with h2 | ⟨sc', hmem, hp⟩
    · rw [h2]
      rcases hd1 with h1 | hp1
      · exact Or.inl h1
      · exact Or.inr ⟨sc, List.mem_cons_self _ _, hp1⟩
    · exact Or.inr ⟨sc', List.mem_cons_of_mem _ hmem, hp⟩

/-- On the raw shape of a well-formed item the formatting callback
renders exactly the typed template line. -/
theorem formatRawMemory_ofItem (i : Nat) (it : RecalledMemoryItem) :
    formatRawMemory i (RawMemoryItem.ofItem it) =
      .ok ("Memory " ++ natStr (i + 1) ++ " (Source: " ++ it.sourceId ++
        ", Score: " ++ scoreDisplay it.score ++ "):\n" ++ it.text) := by
  cases h : it.score <;>
    simp [formatRawMemory, RawMemoryItem.ofItem, rawScoreDisplay, scoreDisplay, h,
      Except.map]

/-- On raw shapes of well-formed items the fallible map renders exactly
the typed formatting. -/
theorem formatRawMemoriesFrom_ofItem :
    ∀ (ms : List RecalledMemoryItem) (i : Nat),
      formatRawMemoriesFrom i (ms.map RawMemoryItem.ofItem) =
        .ok (formatMemoriesFrom i ms)
  | [], _ => rfl
  | m :: rest, i => by
    simp only [List.map_cons, formatRawMemoriesFrom, formatRawMemory_ofItem,
      formatRawMemoriesFrom_ofItem rest (i + 1), formatMemoriesFrom]

/-- The formatting callback succeeds on every well-formed element. -/
theorem formatRawMemory_isOk (i : Nat) (m : RawMemoryItem)
    (h : wellFormedRaw m = true) : ∃ s, formatRawMemory i m = .ok s := by
  match m with
  | .nullish => simp [wellFormedRaw] at h
  | .obj t s .nonNum => simp [wellFormedRaw] at h
  | .obj t s .nullish => exact ⟨_, rfl⟩
  | .obj t s (.num r) => exact ⟨_, rfl⟩

/-- The fallible map succeeds on every list of well-formed elements. -/
theorem formatRawMemoriesFrom_isOk :
    ∀ (l : List RawMemoryItem) (i : Nat), (∀ it ∈ l, wellFormedRaw it = true) →
      ∃ parts, formatRawMemoriesFrom i l = .ok parts
  | [], _, _ => ⟨[], rfl⟩
  | m :: rest, i, h => by
    obtain ⟨s, hs⟩ := formatRawMemory_isOk i m (h m (List.mem_cons_self _ _))
    obtain ⟨ps, hps⟩ :=
      formatRawMemoriesFrom_isOk rest (i + 1)
        (fun it hit => h it (List.mem_cons_of_mem _ hit))
    exact ⟨s :: ps, by simp only [formatRawMemoriesFrom, hs, hps]⟩

/-- A never-successful environment used by witnesses. -/
def witnessEnvNone : Env :=
  { servers := [], callTool := fun _ => .error (), parseJson := fun _ => .error () }

/-- A connected environment whose `enrich_context` response carries one
recalled memory; used by witnesses. -/
def witnessEnvOne : Env :=
  { servers := [⟨"semantic-memory", "connected"⟩]
    callTool := fun _ => .ok (some [.text "payload"])
    parseJson := fun _ =>
      .ok ⟨true, some [.obj "Memory text" "s1" (.num "0.9000")], none⟩ }

/-- C4: taskId isolation.  For any event payload whose `taskId` differs
from the owning instance's, the enrichment promise resolves with the
payload's `userContent` unmodified and no remote call, and both shipped
storage handlers make no remote call and leave the cursor untouched. -/
theorem C4_taskId_isolation (env : Env) (taskId : String)
    (p1 : UserMessageEnrichmentPayload) (p2 : AssistantResponseProcessedPayload)
    (hist : List Msg) (cursor : Int)
    (h1 : p1.taskId ≠ taskId) (h2 : p2.taskId ≠ taskId) :
    enrichmentPromise env taskId p1 = .ok (p1.userContent, []) ∧
    handleAfterAssistantResponseProcessed env taskId p2 = [] ∧
    Sync.handleAfterAssistantResponseProcessed env taskId hist cursor p2 =
      (cursor, []) := by
  refine ⟨?_, ?_, ?_⟩
  · simp [enrichmentPromise, h1]
  · simp [handleAfterAssistantResponseProcessed, h2]
  · simp [Sync.handleAfterAssistantResponseProcessed, h2]

/-- C4 (witness): the isolation theorem at concrete mismatching payloads. -/
theorem C4_taskId_isolation_witness :
    enrichmentPromise witnessEnvOne "task-a"
        ⟨"task-b", [ContentBlock.text "hi"], []⟩ =
      .ok ([ContentBlock.text "hi"], []) ∧
    handleAfterAssistantResponseProcessed witnessEnvOne "task-a"
        ⟨"task-b", ⟨"user", .str "q", none⟩, ⟨"assistant", .str "r", none⟩⟩ = [] ∧
    Sync.handleAfterAssistantResponseProcessed witnessEnvOne "task-a" []
        (-1) ⟨"task-b", ⟨"user", .str "q", none⟩, ⟨"assistant", .str "r", none⟩⟩ =
      (-1, []) :=
  C4_taskId_isolation witnessEnvOne "task-a"
    ⟨"task-b", [ContentBlock.text "hi"], []⟩
    ⟨"task-b", ⟨"user", .str "q", none⟩, ⟨"assistant", .str "r", none⟩⟩
    [] (-1) (by decide) (by decide)

/-- C5: availability gating.  When the probe reports the service
unavailable, `enrichContext` performs no remote call and returns `[]`,
and `storeExchange` performs no remote call and has no effect. -/
theorem C5_availability_gating (env : Env) (q : String) (hist : List Msg)
    (u a : Msg) (tid : String) (h : isAvailable env.servers = false) :
    enrichWithContextInternal env q hist = ([], []) ∧
    storeExchangeInternal env u a tid = [] := by
  constructor
  · simp [enrichWithContextInternal, h]
  · simp [storeExchangeInternal, h]

/-- C5 (witness): gating at a registry whose entry is not connected. -/
theorem C5_availability_gating_witness :
    enrichWithContextInternal
        { servers := [⟨"semantic-memory", "disconnected"⟩]
          callTool := fun _ => .error ()
          parseJson := fun _ => .error () } "query" [] = ([], []) ∧
    storeExchangeInternal
        { servers := [⟨"semantic-memory", "disconnected"⟩]
          callTool := fun _ => .error ()
          parseJson := fun _ => .error () }
        ⟨"user", .str "u", none⟩ ⟨"assistant", .str "a", none⟩ "t" = [] :=
  C5_availability_gating _ "query" [] ⟨"user", .str "u", none⟩
    ⟨"assistant", .str "a", none⟩ "t" (by decide)

/-- A connected environment whose `enrich_context` response text parses
to a successful envelope whose `recalled_memories` array holds a single
`null` element — it passes the `Array.isArray` guard unvalidated. -/
def witnessEnvNullItem : Env :=
  { servers := [⟨"semantic-memory", "connected"⟩]
    callTool := fun _ => .ok (some [.text "payload"])
    parseJson := fun _ => .ok ⟨true, some [.nullish], none⟩ }

/-- C10 (counterexample): the pushed promise can reject.  A successful
response whose `recalled_memories` array is `[null]` passes the
`Array.isArray` guard, and the formatting callback then reads
`item.sourceId` from the `null` element and throws outside any
`try`/`catch`: the single appended promise rejects. -/
theorem C10_promise_can_reject_counterexample :
    handleBeforeUserMessageEnrichment witnessEnvNullItem "t"
      ⟨"t", [ContentBlock.text "hello"], []⟩ = [Except.error ()] := by
  rfl

/-- C10 (amended): the handler synchronously appends exactly one promise
on every event — mismatching taskId, empty sanitized query and empty
recall included — and that promise resolves normally whenever every
element of the recalled array is an object whose `score` is a number or
nullish; elements are never validated, and a malformed one (`null`, or a
non-number `score`) throws uncaught in the formatting callback and
rejects the promise. -/
theorem C10_one_promise_wellformed_resolves (env : Env) (taskId : String)
    (p : UserMessageEnrichmentPayload)
    (hwf : ∀ it ∈ (enrichWithContextInternal env
        (cleanMessageContent (joinSep "\n\n" (queryParts
          (p.userContent.filter fun block => !isStaleRecallBlock block))))
        p.currentHistorySlice).2, wellFormedRaw it = true) :
    (handleBeforeUserMessageEnrichment env taskId p).length = 1 ∧
    ∀ pr ∈ handleBeforeUserMessageEnrichment env taskId p, pr.isOk = true := by
  refine ⟨rfl, ?_⟩
  intro pr hpr
  simp only [handleBeforeUserMessageEnrichment, List.mem_singleton] at hpr
  subst hpr
  unfold enrichmentPromise
  split
  · rfl
  · dsimp only
    split
    · rfl
    · split
      · obtain ⟨parts, hparts⟩ := formatRawMemoriesFrom_isOk _ 0 hwf
        rw [hparts]
        rfl
      · rfl

/-- C10 (witness): the amended theorem at a connected environment whose
response carries one well-formed recalled memory. -/
theorem C10_one_promise_wellformed_resolves_witness :
    (handleBeforeUserMessageEnrichment witnessEnvOne "t"
      ⟨"t", [ContentBlock.text "hello"], []⟩).length = 1 ∧
    ∀ pr ∈ handleBeforeUserMessageEnrichment witnessEnvOne "t"
      ⟨"t", [ContentBlock.text "hello"], []⟩, pr.isOk = true :=
  C10_one_promise_wellformed_resolves witnessEnvOne "t"
    ⟨"t", [ContentBlock.text "hello"], []⟩ (by decide)

/-- C6: enrichment ordering.  For a `userContent` without stale recall
blocks, a matching taskId, a non-empty sanitized query and a non-empty
recall result of well-formed items, the handler's promise resolves with
exactly the recall block prepended at index 0 and the original blocks
unmodified, in their original order. -/
theorem C6_enrichment_ordering (env : Env) (taskId : String)
    (p : UserMessageEnrichmentPayload) (ms : List RecalledMemoryItem)
    (hstale : ∀ b ∈ p.userContent, isStaleRecallBlock b = false)
    (hmatch : p.taskId = taskId)
    (hq : cleanMessageContent (joinSep "\n\n" (queryParts p.userContent)) ≠ "")
    (hms : (enrichWithContextInternal env
        (cleanMessageContent (joinSep "\n\n" (queryParts p.userContent)))
        p.currentHistorySlice).2 = ms.map RawMemoryItem.ofItem)
    (hne : ms ≠ []) :
    enrichmentPromise env taskId p =
      .ok (memoryContextBlock ms :: p.userContent,
        (enrichWithContextInternal env
          (cleanMessageContent (joinSep "\n\n" (queryParts p.userContent)))
          p.currentHistorySlice).1) := by
  have hfilter : p.userContent.filter (fun b => !isStaleRecallBlock b) =
      p.userContent :=
    List.filter_eq_self.mpr fun b hb => by simp [hstale b hb]
  unfold enrichmentPromise
  rw [if_neg (by simp [hmatch])]
  dsimp only
  rw [hfilter, if_neg hq, hms,
    if_pos (by simpa using List.length_pos.mpr hne),
    formatRawMemoriesFrom_ofItem]
  rfl

def witnessPayloadC6 : UserMessageEnrichmentPayload :=
  ⟨"t", [.text "First", .image, .text "Second"], []⟩

def witnessMemC6 : List RecalledMemoryItem := [⟨"Memory text", "s1", 0, some "0.9000"⟩]

/-- C6 (witness): the spec's own ordering scenario
`[text("First"), image, text("Second")]` with one recalled memory. -/
theorem C6_enrichment_ordering_witness :
    enrichmentPromise witnessEnvOne "t" witnessPayloadC6 =
      .ok (memoryContextBlock witnessMemC6 :: witnessPayloadC6.userContent,
        (enrichWithContextInternal witnessEnvOne
          (cleanMessageContent (joinSep "\n\n" (queryParts witnessPayloadC6.userContent)))
          witnessPayloadC6.currentHistorySlice).1) :=
  C6_enrichment_ordering witnessEnvOne "t" witnessPayloadC6 witnessMemC6
    (by decide) rfl (by decide) (by decide) (by decide)

/-- Text derivation following the claim's (and spec §4.4's) words: text
blocks and recursively extracted `tool_result` text, joined `"\n\n"`. -/
def claimStorageTexts : List ContentBlock → List String
  | [] => []
  | .text t :: r => t :: claimStorageTexts r
  | .toolResult (.str s) :: r => s :: claimStorageTexts r
  | .toolResult (.arr inner) :: r =>
    joinSep "\n\n" (inner.filterMap fun b =>
      match b with | .text t => some t | _ => none) :: claimStorageTexts r
  | .toolResult .missing :: r => claimStorageTexts r
  | .image :: r => claimStorageTexts r
  | .otherBlock :: r => claimStorageTexts r

/-- The storage text the claim describes (shared extraction rule). -/
def claimStorageText : MsgContent → String
  | .str s => s
  | .blocks l => joinSep "\n\n" (claimStorageTexts l)

/-- C7 (counterexample): `storeExchangeInternal` derives its text from
`text` blocks only — a `tool_result` block contributes nothing, while the
claim's shared extraction rule would yield `"hello"`; consequently the
store call is skipped entirely at this input instead of storing "hello". -/
theorem C7_storage_ignores_toolResult_counterexample :
    contentToText (.blocks [.toolResult (.str "hello")]) = "" ∧
    claimStorageText (.blocks [.toolResult (.str "hello")]) = "hello" ∧
    storeExchangeInternal witnessEnvOne
      ⟨"user", .blocks [.toolResult (.str "hello")], none⟩
      ⟨"assistant", .str "", none⟩ "t" = [] := by
  refine ⟨rfl, rfl, by decide⟩

/-- C7 (amended): the storage text concatenates, in order, the text of
every `text` block with `"\n\n"` separators; `tool_result` blocks — like
every non-text block — contribute nothing (inserting one anywhere leaves
the derived text unchanged). -/
theorem C7_storage_text_blocks_only (l1 l2 : List ContentBlock)
    (b : ContentBlock) (ts : List String) (hb : isTextBlock b = false) :
    contentToText (.blocks (l1 ++ b :: l2)) = contentToText (.blocks (l1 ++ l2)) ∧
    contentToText (.blocks (ts.map ContentBlock.text)) = joinSep "\n\n" ts := by
  constructor
  · simp [contentToText, textBlockTexts, List.filter_append, List.filter_cons, hb]
  · have h1 : ts.filter (isTextBlock ∘ ContentBlock.text) = ts :=
      List.filter_eq_self.mpr fun a _ => rfl
    have h2 : ts.map (textOf ∘ ContentBlock.text) = ts := by
      rw [show (textOf ∘ ContentBlock.text) = id from funext fun a => rfl,
        List.map_id]
    simp [contentToText, textBlockTexts, List.filter_map, List.map_map, h1, h2]

/-- C7 (witness): inserting an image between two text blocks leaves the
storage text `"a\n\nb"` unchanged. -/
theorem C7_storage_text_blocks_only_witness :
    contentToText (.blocks ([.text "a"] ++ .image :: [.text "b"])) =
      contentToText (.blocks ([.text "a"] ++ [.text "b"])) ∧
    contentToText (.blocks (["a", "b"].map ContentBlock.text)) =
      joinSep "\n\n" ["a", "b"] :=
  C7_storage_text_blocks_only [.text "a"] [.text "b"] .image ["a", "b"] rfl

theorem textBlockTexts_eq_filterMap (l : List ContentBlock) :
    textBlockTexts l = l.filterMap fun b =>
      match b with | .text t => some t | _ => none := by
  induction l with
  | nil => rfl
  | cons b r ih =>
    cases b <;>
      simp_all [textBlockTexts, List.filter_cons, List.filterMap_cons, isTextBlock,
        textOf]

/-- The conversation context the claim describes: last 6 entries, text
per the shared §4.4 rule, sanitized, role-prefixed lines. -/
def claimConversationContext (recentHistory : List Msg) : String :=
  joinSep "\n" ((lastSix recentHistory).map fun msg =>
    msg.role ++ ": " ++ cleanMessageContent (claimStorageText msg.content))

/-- The amended description: per-entry text joins the `text`-block texts
with a single space (ignoring `tool_result`), is sanitized, and the
role-prefixed lines of exactly the last 6 entries are joined with `"\n"`. -/
def amendedConversationContext (recentHistory : List Msg) : String :=
  joinSep "\n" ((recentHistory.drop (recentHistory.length - 6)).map fun msg =>
    msg.role ++ ": " ++ cleanMessageContent (match msg.content with
      | .str s => s
      | .blocks l => joinSep " " (l.filterMap fun b =>
          match b with | .text t => some t | _ => none)))

/-- C8 (counterexample): two text blocks are joined with a single space,
`"user: a b"`, not with the claim's `"\n\n"` separator. -/
theorem C8_conversation_context_counterexample :
    conversationContextString [⟨"user", .blocks [.text "a", .text "b"], none⟩] ≠
      claimConversationContext [⟨"user", .blocks [.text "a", .text "b"], none⟩] ∧
    conversationContextString [⟨"user", .blocks [.text "a", .text "b"], none⟩] =
      "user: a b" := by
  constructor <;> decide

/-- C8 (amended): the built context equals the amended description for
every history, and only the last 6 entries ever contribute. -/
theorem C8_conversation_context (recentHistory pre l6 : List Msg)
    (h6 : l6.length = 6) :
    conversationContextString recentHistory =
      amendedConversationContext recentHistory ∧
    conversationContextString (pre ++ l6) = conversationContextString l6 := by
  constructor
  · unfold conversationContextString amendedConversationContext lastSix
    refine congrArg (joinSep "\n") (List.map_congr_left fun msg _ => ?_)
    cases hc : msg.content with
    | str s => rfl
    | blocks l => simp [textBlockTexts_eq_filterMap]
  · unfold conversationContextString lastSix
    have hdrop : (pre ++ l6).drop ((pre ++ l6).length - 6) = l6 := by
      have harith : (pre ++ l6).length - 6 = pre.length := by
        rw [List.length_append, h6]
        omega
      rw [harith, List.drop_left]
    have hdrop6 : l6.drop (l6.length - 6) = l6 := by
      rw [h6]
      rfl
    rw [hdrop, hdrop6]

def witnessMsgC8 : Msg := ⟨"u", .str "a", none⟩

/-- C8 (witness): the amended characterization and the last-6 property at
a 7-entry history. -/
theorem C8_conversation_context_witness :
    conversationContextString [witnessMsgC8] =
      amendedConversationContext [witnessMsgC8] ∧
    conversationContextString ([witnessMsgC8] ++
        [witnessMsgC8, witnessMsgC8, witnessMsgC8,
         witnessMsgC8, witnessMsgC8, witnessMsgC8]) =
      conversationContextString
        [witnessMsgC8, witnessMsgC8, witnessMsgC8,
         witnessMsgC8, witnessMsgC8, witnessMsgC8] :=
  C8_conversation_context [witnessMsgC8] [witnessMsgC8]
    [witnessMsgC8, witnessMsgC8, witnessMsgC8,
     witnessMsgC8, witnessMsgC8, witnessMsgC8] rfl

def witnessPayloadC9 : AssistantResponseProcessedPayload :=
  ⟨"t", ⟨"user", .str "hi", none⟩, ⟨"assistant", .str "hello", none⟩⟩

/-- C9 (counterexample): with a matching taskId, a connected service and
no completion marker, the `syncHistory`-version storage handler performs
no operation at all — no store, no sync — while the claim says the single
exchange is stored directly; the direct store exists only in the other
shipped handler version, which in turn never checks the marker. -/
theorem C9_storage_handler_counterexample :
    Sync.handleAfterAssistantResponseProcessed witnessEnvOne "t"
      [⟨"user", .str "hi", none⟩] (-1) witnessPayloadC9 = (-1, []) ∧
    handleAfterAssistantResponseProcessed witnessEnvOne "t" witnessPayloadC9 =
      [.storeExchange ⟨"hi", "hello", "t", none, none⟩] := by
  constructor <;> decide

/-- C9 (amended): the `syncHistory`-version storage handler, on a
matching taskId, runs a full `syncHistory()` pass exactly when the
derived assistant text contains the completion marker, and otherwise
performs no operation (no direct single-exchange store). -/
theorem C9_storage_handler_marker_sync (env : Env) (taskId : String)
    (hist : List Msg) (cursor : Int) (p : AssistantResponseProcessedPayload)
    (h : p.taskId = taskId) :
    (containsSub Sync.attemptCompletionMarker
        (contentToText p.assistantMessage.content).data = true →
      Sync.handleAfterAssistantResponseProcessed env taskId hist cursor p =
        Sync.syncHistory env taskId hist cursor) ∧
    (containsSub Sync.attemptCompletionMarker
        (contentToText p.assistantMessage.content).data = false →
      Sync.handleAfterAssistantResponseProcessed env taskId hist cursor p =
        (cursor, [])) := by
  constructor <;> intro hc <;>
    simp [Sync.handleAfterAssistantResponseProcessed, h, hc]

/-- C9 (witness): the amended handler dichotomy at the no-marker payload. -/
theorem C9_storage_handler_marker_sync_witness :
    (containsSub Sync.attemptCompletionMarker
        (contentToText witnessPayloadC9.assistantMessage.content).data = true →
      Sync.handleAfterAssistantResponseProcessed witnessEnvOne "t"
          [⟨"user", .str "hi", none⟩] (-1) witnessPayloadC9 =
        Sync.syncHistory witnessEnvOne "t" [⟨"user", .str "hi", none⟩] (-1)) ∧
    (containsSub Sync.attemptCompletionMarker
        (contentToText witnessPayloadC9.assistantMessage.content).data = false →
      Sync.handleAfterAssistantResponseProcessed witnessEnvOne "t"
          [⟨"user", .str "hi", none⟩] (-1) witnessPayloadC9 = (-1, [])) :=
  C9_storage_handler_marker_sync witnessEnvOne "t" [⟨"user", .str "hi", none⟩]
    (-1) witnessPayloadC9 rfl

/-! ## C2: sanitization of the injected recall block -/

theorem isPrefixC_append_self : ∀ (p t : Chars), isPrefixC p (p ++ t) = true
  | [], _ => rfl
  | c :: ps, t => by simp [isPrefixC, isPrefixC_append_self ps t]

theorem isPrefixC_refl (p : Chars) : isPrefixC p p = true := by
  have := isPrefixC_append_self p []
  rwa [List.append_nil] at this

theorem findSub_append_of_head_notin (h : Char) (ct : Chars) :
    ∀ (mid : Chars), h ∉ mid →
      findSub (h :: ct) (mid ++ (h :: ct)) = some mid.length
  | [], _ => by
    rw [List.nil_append]
    show findSub (h :: ct) (h :: ct) = some 0
    simp [findSub, isPrefixC_refl]
  | c :: mid', hmem => by
    have hne : ¬(h = c) := fun e => hmem (e ▸ List.mem_cons_self c mid')
    have hmem' : h ∉ mid' := fun e => hmem (List.mem_cons_of_mem c e)
    have hpref : isPrefixC (h :: ct) (c :: (mid' ++ (h :: ct))) = false := by
      simp [isPrefixC, hne]
    show findSub (h :: ct) (c :: (mid' ++ (h :: ct))) = some (mid'.length + 1)
    unfold findSub
    rw [hpref]
    simp [findSub_append_of_head_notin h ct mid' hmem']

/-- A delimited block whose closing marker occurs nowhere earlier is
matched in full (and no trailing newline follows). -/
theorem matchBlock_full (opn : Chars) (h : Char) (ct mid : Chars)
    (hmem : h ∉ mid) :
    matchBlock opn (h :: ct) (opn ++ (mid ++ (h :: ct))) =
      some (opn ++ (mid ++ (h :: ct))).length := by
  unfold matchBlock
  rw [if_pos (isPrefixC_append_self opn _), List.drop_left,
    findSub_append_of_head_notin h ct mid hmem]
  have hdrop : (opn ++ (mid ++ (h :: ct))).drop
      (opn.length + mid.length + (h :: ct).length) = [] := by
    apply List.drop_eq_nil_of_le
    simp [List.length_append]
    omega
  simp only [hdrop, List.head?_nil, Option.some.injEq]
  simp [List.length_append]
  omega

/-- The string contains neither `'<'` nor `'['`. -/
def goodStr (s : String) : Prop := '<' ∉ s.data ∧ '[' ∉ s.data

instance (s : String) : Decidable (goodStr s) :=
  inferInstanceAs (Decidable ('<' ∉ s.data ∧ '[' ∉ s.data))

/-- The recalled item's text, sourceId and formatted score contain
neither `'<'` nor `'['`. -/
def goodItem (item : RecalledMemoryItem) : Prop :=
  goodStr item.text ∧ goodStr item.sourceId ∧ goodStr (scoreDisplay item.score)

instance (item : RecalledMemoryItem) : Decidable (goodItem item) :=
  inferInstanceAs (Decidable (goodStr item.text ∧ goodStr item.sourceId ∧
    goodStr (scoreDisplay item.score)))

theorem goodStr_append {a b : String} (ha : goodStr a) (hb : goodStr b) :
    goodStr (a ++ b) := by
  constructor <;> intro hc <;> rw [String.data_append] at hc <;>
    rcases List.mem_append.mp hc with h | h
  · exact ha.1 h
  · exact hb.1 h
  · exact ha.2 h
  · exact hb.2 h

theorem digitChar_isDigit {n : Nat} (h : n < 10) :
    (Nat.digitChar n).isDigit = true := by
  interval_cases n <;> decide

theorem natDigitsF_digits :
    ∀ (fuel n : Nat) {c : Char}, c ∈ natDigitsF fuel n → c.isDigit = true
  | 0, n, c, h => absurd h (List.not_mem_nil c)
  | fuel + 1, n, c, h => by
    unfold natDigitsF at h
    split at h
    · next hlt =>
      rcases List.mem_singleton.mp h with rfl
      exact digitChar_isDigit hlt
    · next hge =>
      rcases List.mem_append.mp h with h1 | h1
      · exact natDigitsF_digits fuel (n / 10) h1
      · rcases List.mem_singleton.mp h1 with rfl
        exact digitChar_isDigit (Nat.mod_lt _ (by norm_num))

theorem natStr_goodStr (n : Nat) : goodStr (natStr n) := by
  constructor <;> intro hc <;>
    exact absurd (natDigitsF_digits (n + 1) n hc) (by decide)

theorem formatMemoriesFrom_goodStr :
    ∀ (i : Nat) (ms : List RecalledMemoryItem), (∀ it ∈ ms, goodItem it) →
      ∀ part ∈ formatMemoriesFrom i ms, goodStr part
  | _, [], _, part, hpart => absurd hpart (List.not_mem_nil part)
  | i, item :: rest, hgood, part, hpart => by
    simp only [formatMemoriesFrom, List.mem_cons] at hpart
    rcases hpart with rfl | hmem
    · have hitem := hgood item (List.mem_cons_self _ _)
      have g1 : goodStr "Memory " := by decide
      have g2 : goodStr " (Source: " := by decide
      have g3 : goodStr ", Score: " := by decide
      have g4 : goodStr "):\n" := by decide
      exact goodStr_append (goodStr_append (goodStr_append (goodStr_append
        (goodStr_append (goodStr_append (goodStr_append g1
          (natStr_goodStr (i + 1))) g2) hitem.2.1) g3) hitem.2.2) g4) hitem.1
    · exact formatMemoriesFrom_goodStr (i + 1) rest
        (fun it h => hgood it (List.mem_cons_of_mem _ h)) part hmem

theorem mem_joinSep_data {c : Char} {sep : String} :
    ∀ {l : List String}, c ∈ (joinSep sep l).data →
      c ∈ sep.data ∨ ∃ x ∈ l, c ∈ x.data
  | [], h => by simp [joinSep] at h
  | [x], h => Or.inr ⟨x, by simp, by simpa [joinSep] using h⟩
  | x :: y :: r, h => by
    simp only [joinSep, String.data_append, List.mem_append] at h
    rcases h with (hx | hs) | hr
    · exact Or.inr ⟨x, by simp, hx⟩
    · exact Or.inl hs
    · rcases mem_joinSep_data hr with hs | ⟨z, hz, hcz⟩
      · exact Or.inl hs
      · exact Or.inr ⟨z, List.mem_cons_of_mem _ hz, hcz⟩

theorem body_goodStr (ms : List RecalledMemoryItem)
    (hgood : ∀ it ∈ ms, goodItem it) :
    goodStr (joinSep "\n---\n" (formatMemoriesFrom 0 ms)) := by
  constructor <;> intro hc <;> rcases mem_joinSep_data hc with hs | ⟨x, hx, hcx⟩
  · exact absurd hs (by decide)
  · exact (formatMemoriesFrom_goodStr 0 ms hgood x hx).1 hcx
  · exact absurd hs (by decide)
  · exact (formatMemoriesFrom_goodStr 0 ms hgood x hx).2 hcx

/-- C2 (amended): for every non-empty list of recalled items whose text,
sourceId and formatted score contain neither `'<'` nor `'['`, the recall
block built by the enrichment handler sanitizes to the empty string: the
injected block is fully removed and contributes nothing downstream. -/
theorem C2_recall_block_sanitizes_to_empty (ms : List RecalledMemoryItem)
    (hne : ms ≠ []) (hgood : ∀ it ∈ ms, goodItem it) :
    cleanMessageContent (recallBlockText ms) = "" := by
  have hbody := body_goodStr ms hgood
  have hclose : recallClose = '[' :: ("/Recalled Memories]".data) := by decide
  have hdata : (recallBlockText ms).data = recallOpen ++
      (('\n' :: ((joinSep "\n---\n" (formatMemoriesFrom 0 ms)).data ++ ['\n'])) ++
        recallClose) := by
    simp only [recallBlockText, String.data_append, recallOpen, recallClose,
      List.append_assoc, List.cons_append, List.singleton_append,
      List.nil_append]
  have hmid : '[' ∉
      ('\n' :: ((joinSep "\n---\n" (formatMemoriesFrom 0 ms)).data ++ ['\n'])) := by
    intro hc
    rcases List.mem_cons.mp hc with h | h
    · exact absurd h (by decide)
    · rcases List.mem_append.mp h with h | h
      · exact hbody.2 h
      · exact absurd h (by decide)
  have hlt : '<' ∉ (recallBlockText ms).data := by
    intro hc
    rw [hdata] at hc
    rcases List.mem_append.mp hc with h | h
    · exact absurd h (by decide)
    · rcases List.mem_append.mp h with h | h
      · rcases List.mem_cons.mp h with h | h
        · exact absurd h (by decide)
        · rcases List.mem_append.mp h with h | h
          · exact hbody.1 h
          · exact absurd h (by decide)
      · exact absurd h (by decide)
  have e0 : deleteMatches (matchBlock envOpen envClose) (recallBlockText ms).data =
      (recallBlockText ms).data :=
    replaceMatches_eq_self_of_head '<'
      (fun t n h => matchBlock_head_of (by decide) h) hlt
  have e1 : deleteMatches (matchBlock recallOpen recallClose)
      (recallBlockText ms).data = [] := by
    rw [hdata, hclose]
    refine deleteMatches_eq_nil (matchBlock_full recallOpen '[' _ _ ?_) ?_
    · exact hmid
    · intro hnil
      have := congrArg List.length hnil
      simp [recallOpen, List.length_append] at this
  apply String.ext
  rw [cleanMessageContent_data]
  simp only [cleanChars]
  rw [e0, e1]
  rfl

/-- C2 (counterexample): the claim fails for arbitrary recalled items — a
memory whose text contains the closing marker leaves a residue of the
injected block (including a recall marker) in the sanitized output. -/
theorem C2_recall_block_counterexample :
    cleanMessageContent
        (recallBlockText [⟨"[/Recalled Memories]X", "s1", 0, none⟩]) =
      "X\n[/Recalled Memories]" := by
  decide

/-- C2 (witness): the amended theorem at one benign recalled item. -/
theorem C2_recall_block_sanitizes_witness :
    cleanMessageContent (recallBlockText [⟨"m", "s", 0, none⟩]) = "" :=
  C2_recall_block_sanitizes_to_empty [⟨"m", "s", 0, none⟩] (by decide) (by decide)

end Paw

